/-
Verification of the birb-run task runner's core engine against its
natural-language specification.

Each section embeds one component of the Rust source as executable Lean
definitions (pure functions over explicit state; filesystem access is
abstracted into an `FsModel` oracle; machine integers and timestamps become
`Nat`), and proves or refutes the specified properties about them.
-/
import Mathlib

set_option maxHeartbeats 1000000

namespace BirbRun

/-! ## Topological sort

Embedding of `src/run/dependency_resolution/topological_sort.rs`.

Graph nodes (`ResolvedTaskInvocation` in the source) are abstracted to `Nat`;
the `LinkedHashMap<_, LinkedHashSet<_>>` dependency graph becomes an
insertion-ordered association list whose entry values are the ordered
successor ("dependency") lists.  The mutable `visited` / `visiting` hash sets
and the `result` vector of the source become explicitly threaded state; the
unbounded Rust recursion is driven by a fuel argument, with a dedicated
`fuelExhausted` error that the fuel chosen in `topological_sort` never
reaches on the runs the theorems below talk about (they all condition on an
`ok` outcome).
-/

abbrev Node := Nat

abbrev Graph := List (Node × List Node)

/-- Lookup of a node's successor set: `graph.get(node)` in the source. -/
def Graph.succs (g : Graph) (n : Node) : Option (List Node) :=
  (g.find? (fun p => p.1 == n)).map (·.2)

/-- The two mutable accumulators of `visit_node`: the black set `visited`
and the output vector `result` (grown in reverse topological order). -/
structure VisitState where
  visited : List Node
  result : List Node
deriving Repr, DecidableEq

inductive TopologicalSortError where
  | cycleDetected (path : List Node)
  | fuelExhausted
deriving Repr, DecidableEq

/-- Loop body of `reconstruct_cycle`: walk successor lists, always stepping
to the first successor that is in the gray set, until the start node closes
the cycle.  The Rust `while let` loop spins forever when no gray successor
exists; the fuel models that case by giving up with the cycle so far. -/
def reconstructCycleAux : Nat → Graph → Node → List Node → Node → List Node → List Node
  | 0, _, _, _, _, cycle => cycle
  | fuel+1, g, start, visiting, current, cycle =>
    match Graph.succs g current with
    | none => cycle
    | some deps =>
      match deps.find? (fun d => visiting.contains d) with
      | none => cycle
      | some dep =>
        if dep = start then cycle ++ [dep]
        else reconstructCycleAux fuel g start visiting dep (cycle ++ [dep])

/-- `reconstruct_cycle` from the source. -/
def reconstructCycle (g : Graph) (start : Node) (visiting : List Node) : List Node :=
  reconstructCycleAux (g.length + 1) g start visiting start [start]

mutual

/-- `visit_node` from the source: gray/black DFS.  `visiting` is the gray
set (restored on return, hence passed down extended and simply not returned);
on success the node has been appended to `result` after all of its
successors.  Fuel is consumed one unit per call so that the recursion is
structural (and hence kernel-reducible on concrete inputs). -/
def visitNode : Nat → Graph → Node → List Node → VisitState →
    Except TopologicalSortError VisitState
  | 0, _, _, _, _ => .error .fuelExhausted
  | fuel+1, g, node, visiting, s =>
    if node ∈ visiting then
      .error (.cycleDetected (reconstructCycle g node visiting))
    else if node ∈ s.visited then
      .ok s
    else
      match visitList fuel g ((Graph.succs g node).getD []) (node :: visiting) s with
      | .error e => .error e
      | .ok s' => .ok ⟨node :: s'.visited, s'.result ++ [node]⟩

/-- The `for dep in dependencies` loop of `visit_node`. -/
def visitList : Nat → Graph → List Node → List Node → VisitState →
    Except TopologicalSortError VisitState
  | 0, _, _, _, _ => .error .fuelExhausted
  | _+1, _, [], _, s => .ok s
  | fuel+1, g, d :: ds, visiting, s =>
    match visitNode fuel g d visiting s with
    | .error e => .error e
    | .ok s' => visitList fuel g ds visiting s'

end

/-- A fuel budget that the DFS of `topological_sort` can never exhaust: every
unit pays for one `visitNode` or `visitList` call, and there are at most
one call per edge plus one chain per expanded node. -/
def graphFuel (g : Graph) : Nat :=
  let w := g.length + (g.map (fun p => p.2.length)).sum + 2
  w * w + 2

/-- The `for node in graph.keys()` loop of `topological_sort`. -/
def topoFold : Graph → List Node → VisitState → Except TopologicalSortError VisitState
  | _, [], s => .ok s
  | g, n :: ns, s =>
    if n ∈ s.visited then topoFold g ns s
    else
      match visitNode (graphFuel g) g n [] s with
      | .error e => .error e
      | .ok s' => topoFold g ns s'

/-- `topological_sort` from the source: DFS over all keys, then
`result.reverse()`. -/
def topological_sort (g : Graph) : Except TopologicalSortError (List Node) :=
  match topoFold g (g.map (·.1)) ⟨[], []⟩ with
  | .error e => .error e
  | .ok s => .ok s.result.reverse

/-! ## Shared data model

`serde_json::Value` is abstracted to `Json` (numbers become `Int`: none of
the verified properties depend on float semantics), filesystem paths become
lists of components (`PathBuf::push` of a relative path is list append), and
the filesystem itself becomes a pure oracle `FsModel` recording existence,
file-ness, modification time (a `Nat` timestamp) and content hash (a `Nat`
standing for the 32-byte SHA-256 digest) of every path.
-/

inductive Json where
  | null
  | bool (b : Bool)
  | num (n : Int)
  | str (s : String)
  | arr (items : List Json)
  | obj (fields : List (String × Json))

inductive Component where
  | normal (s : String)
  | parentDir
deriving Repr, DecidableEq

abbrev Path := List Component

/-- Lexical normalization of a path: `..` removes the preceding component
(this is what `Path::canonicalize` does to a `..`-containing path on a
symlink-free filesystem, which is the best case for the safety claim). -/
def canonicalizePath (p : Path) : Path :=
  p.foldl
    (fun acc c =>
      match c with
      | .normal s => acc ++ [.normal s]
      | .parentDir => acc.dropLast)
    []

/-- Point update of a map modelled as a function into `Option`. -/
def updOpt {β : Type} (m : Path → Option β) (k : Path) (v : β) : Path → Option β :=
  fun q => if q = k then some v else m q

structure FsModel where
  pathExists : Path → Bool
  isFile : Path → Bool
  mtime : Path → Nat
  hashOf : Path → Nat

/-- `OutputPath` from `src/task/task.rs`: a declared output, tagged file or
directory (the trailing-slash convention of the YAML surface). -/
inductive OutputPath where
  | file (p : Path)
  | directory (p : Path)
deriving Repr, DecidableEq

/-- The `AsRef<Path>` view of an `OutputPath`. -/
def OutputPath.path : OutputPath → Path
  | .file p => p
  | .directory p => p

/-- `OutputPath::resolve`: push the declared path onto the workdir. -/
def OutputPath.resolve (o : OutputPath) (workdir : Path) : OutputPath :=
  match o with
  | .file p => .file (workdir ++ p)
  | .directory p => .directory (workdir ++ p)

/-- `InstantiatedTask` from `src/task/task.rs`, restricted to the fields the
up-to-date oracle and the clean path read.  Recipe steps are kept as their
rendered shell scripts. -/
structure InstantiatedTask where
  name : String
  env : List (String × Json)
  workdir : Path
  phony : Bool
  outputs : List OutputPath
  sources : List Path
  steps : List String
  clean : Option (List String)

/-- `InstantiatedTask::resolve_sources`. -/
def InstantiatedTask.resolveSources (t : InstantiatedTask) : List Path :=
  t.sources.map (fun s => t.workdir ++ s)

/-- `InstantiatedTask::resolve_outputs`. -/
def InstantiatedTask.resolveOutputs (t : InstantiatedTask) : List OutputPath :=
  t.outputs.map (fun o => o.resolve t.workdir)

/-! ## Up-to-date oracle

Embedding of `src/run/execution/triggers.rs` (`NaiveTriggerChecker`).  The
run-wide `not_changed` map and the per-task `output_hashes` context are
threaded explicitly as `Path → Option _` maps.  The source's various error
enums are collapsed into `TriggerErr`; the `panic!` on an output older than
the newest source is modelled as the `outputOlderThanSources` error.
-/

inductive TriggerErr where
  | sourceFileMissing (p : Path)
  | outputFileNotFound (p : Path)
  | outputOlderThanSources (p : Path)
deriving Repr, DecidableEq

/-- The source loop of `newest_input_timestamp`: skip sources recorded as
unchanged, fail on a missing source, otherwise keep the largest mtime. -/
def newestAux (fs : FsModel) (notChanged : Path → Option Bool) :
    List Path → Option Nat → Except TriggerErr (Option Nat)
  | [], acc => .ok acc
  | p :: ps, acc =>
    if notChanged p = some true then newestAux fs notChanged ps acc
    else if fs.pathExists p = false then .error (.sourceFileMissing p)
    else
      let ts := fs.mtime p
      let acc' :=
        match acc with
        | some oldest => if ts > oldest then some ts else some oldest
        | none => some ts
      newestAux fs notChanged ps acc'

/-- `newest_input_timestamp` from the source. -/
def newestInputTimestamp (fs : FsModel) (notChanged : Path → Option Bool)
    (task : InstantiatedTask) : Except TriggerErr (Option Nat) :=
  newestAux fs notChanged task.resolveSources none

/-- The output loop of `sources_changed`: a missing output forces a run; an
existing one forces a run when older than the newest source; existing file
outputs get their pre-run hash captured into `output_hashes`. -/
def sourcesChangedAux (fs : FsModel) (newest : Option Nat) :
    List OutputPath → Bool → (Path → Option Nat) → Bool × (Path → Option Nat)
  | [], changed, hashes => (changed, hashes)
  | o :: os, changed, hashes =>
    let p := o.path
    if fs.pathExists p = false then sourcesChangedAux fs newest os true hashes
    else
      let changed :=
        match newest with
        | some t => if fs.mtime p < t then true else changed
        | none => changed
      let hashes := if fs.isFile p then updOpt hashes p (fs.hashOf p) else hashes
      sourcesChangedAux fs newest os changed hashes

/-- `sources_changed` from the source. -/
def sourcesChanged (fs : FsModel) (task : InstantiatedTask)
    (outputHashes : Path → Option Nat) (notChanged : Path → Option Bool) :
    Except TriggerErr (Bool × (Path → Option Nat)) :=
  match newestInputTimestamp fs notChanged task with
  | .error e => .error e
  | .ok newest =>
    let r := sourcesChangedAux fs newest task.resolveOutputs false outputHashes
    .ok (r.1 || task.phony, r.2)

/-- `NaiveTriggerChecker::should_run`: always run a task without outputs,
never run one without steps, otherwise defer to `sources_changed`. -/
def should_run (fs : FsModel) (notChanged : Path → Option Bool)
    (task : InstantiatedTask) (outputHashes : Path → Option Nat) :
    Except TriggerErr (Bool × (Path → Option Nat)) :=
  if task.resolveOutputs.isEmpty then .ok (true, outputHashes)
  else if task.steps.isEmpty then .ok (false, outputHashes)
  else sourcesChanged fs task outputHashes notChanged

/-- The `not_changed` update of one `check_outputs` iteration, the source's
nested `if let` ladder verbatim (factored out to name it): only file outputs
touch the map; with a captured pre-hash, an entry holding `false` stays
`false` and otherwise the entry becomes `!executed || post == pre`; with no
pre-hash the entry is created as `false` when absent
(`entry(..).or_insert(false)`). -/
def notChangedUpdate (fs : FsModel) (outputHashes : Path → Option Nat)
    (executed : Bool) (m : Path → Option Bool) (p : Path) : Path → Option Bool :=
  if fs.isFile p then
    match outputHashes p with
    | some prevHash =>
      match m p with
      | some previouslyNotChanged =>
        if previouslyNotChanged = false then m
        else updOpt m p (!executed || (fs.hashOf p == prevHash))
      | none => updOpt m p (!executed || (fs.hashOf p == prevHash))
    | none =>
      match m p with
      | some _ => m
      | none => updOpt m p false
  else m

/-- One iteration of the output loop of `NaiveTriggerChecker::check_outputs`:
missing output is a hard error; the `not_changed` map is updated; finally an
output older than the newest source hits the source's `panic!`. -/
def checkOutputsStep (fs : FsModel) (outputHashes : Path → Option Nat)
    (executed : Bool) (newest : Option Nat) (m : Path → Option Bool)
    (o : OutputPath) : Except TriggerErr (Path → Option Bool) :=
  let p := o.path
  if fs.pathExists p = false then .error (.outputFileNotFound p)
  else
    let m := notChangedUpdate fs outputHashes executed m p
    match newest with
    | some t => if fs.mtime p < t then .error (.outputOlderThanSources p) else .ok m
    | none => .ok m

def checkOutputsAux (fs : FsModel) (outputHashes : Path → Option Nat)
    (executed : Bool) (newest : Option Nat) :
    List OutputPath → (Path → Option Bool) → Except TriggerErr (Path → Option Bool)
  | [], m => .ok m
  | o :: os, m =>
    match checkOutputsStep fs outputHashes executed newest m o with
    | .error e => .error e
    | .ok m₁ => checkOutputsAux fs outputHashes executed newest os m₁

/-- `NaiveTriggerChecker::check_outputs` from the source. -/
def check_outputs (fs : FsModel) (task : InstantiatedTask)
    (outputHashes : Path → Option Nat) (executed : Bool)
    (notChanged : Path → Option Bool) : Except TriggerErr (Path → Option Bool) :=
  match newestInputTimestamp fs notChanged task with
  | .error e => .error e
  | .ok newest => checkOutputsAux fs outputHashes executed newest task.resolveOutputs notChanged

/-! ## Clean path

Embedding of the output-deletion loop of `clean_instantiated_task` in
`src/run/execution.rs`.  The safety rail is
`o.as_ref().strip_prefix(&tasks.dir).expect(..)`: a purely component-wise
prefix strip (no canonicalization), whose failure panics before the current
output is deleted (outputs earlier in the list are already gone).  The model
returns the list of deleted paths together with the panic, if any; running
the optional `clean` recipe (arbitrary shell) is outside the model.
-/

/-- `Path::strip_prefix`: component-wise, purely syntactic. -/
def stripPrefixComponents : Path → Path → Option Path
  | p, [] => some p
  | [], _ :: _ => none
  | c :: cs, d :: ds => if c = d then stripPrefixComponents cs ds else none

inductive CleanErr where
  | escapesTaskfileDir (p : Path)
deriving Repr, DecidableEq

/-- The deletion loop: for each resolved output, panic if it does not
syntactically start with the taskfile directory, otherwise unlink it (file)
or remove it recursively (directory) when it exists. -/
def cleanOutputs (fs : FsModel) (taskfileDir : Path) :
    List OutputPath → List Path × Option CleanErr
  | [] => ([], none)
  | o :: os =>
    match stripPrefixComponents o.path taskfileDir with
    | none => ([], some (.escapesTaskfileDir o.path))
    | some _ =>
      let removedNow := if fs.pathExists o.path then [o.path] else []
      let r := cleanOutputs fs taskfileDir os
      (removedNow ++ r.1, r.2)

/-- `clean_instantiated_task` (deletion part): walk the resolved outputs. -/
def clean_instantiated_task (fs : FsModel) (taskfileDir : Path)
    (task : InstantiatedTask) : List Path × Option CleanErr :=
  cleanOutputs fs taskfileDir task.resolveOutputs

/-- Whether `p` starts with `dir`, component-wise (used on canonical forms
to express "is a descendant of"). -/
def isUnderDir (dir p : Path) : Bool :=
  (stripPrefixComponents p dir).isSome

/-- First-match lookup in an insertion-ordered association list (the view
shared by `LinkedHashMap`, `BTreeMap` and `HashMap` lookups). -/
def lookupStr {β : Type _} (l : List (String × β)) (k : String) : Option β :=
  (l.find? (fun e => e.1 == k)).map (·.2)

/-! ## Argument type checking and instantiation

Embedding of `src/utils/type_checking.rs`, `src/task/params.rs` and the
argument checking of `src/task/instantiation.rs`.  The `HashMap` of params
and the `BTreeMap` of args become association lists (their iteration order
abstracted as list order).
-/

namespace Inst

inductive ArgType where
  | string
  | select (options : List String)
  | number
  | boolean
  | path
  | array (inner : ArgType)
deriving Repr, DecidableEq

inductive TypeCheckError where
  | mismatchedType (expected : ArgType)
  | invalidOption (expected : List String) (value : String)
deriving Repr, DecidableEq

def Json.isString : Json → Bool
  | .str _ => true
  | _ => false

def Json.isNumber : Json → Bool
  | .num _ => true
  | _ => false

def Json.isBoolean : Json → Bool
  | .bool _ => true
  | _ => false

/-- `check_type` from `src/utils/type_checking.rs`.  Note the `Number` arm
accepts booleans as well, exactly as the source does. -/
def check_type : ArgType → Json → Except TypeCheckError Unit
  | .string, v =>
    if Json.isString v then .ok () else .error (.mismatchedType .string)
  | .select options, v =>
    match v with
    | .str s =>
      if options.contains s then .ok () else .error (.invalidOption options s)
    | _ => .error (.mismatchedType (.select options))
  | .number, v =>
    if Json.isBoolean v || Json.isNumber v then .ok ()
    else .error (.mismatchedType .number)
  | .boolean, v =>
    if Json.isBoolean v then .ok () else .error (.mismatchedType .boolean)
  | .path, v =>
    if Json.isString v then .ok () else .error (.mismatchedType .path)
  | .array inner, v =>
    match v with
    | .arr items =>
      if items.all (fun w => (check_type inner w).isOk) then .ok ()
      else .error (.mismatchedType (.array inner))
    | _ => .error (.mismatchedType (.array inner))

/-- `Param` from `src/task/params.rs`. -/
structure Param where
  ty : ArgType
  default : Option Json

inductive ArgumentsCheckError where
  | notFound (key : String)
  | typeError (key : String) (err : TypeCheckError)
deriving Repr, DecidableEq

/-- First loop of `Task::check_args`: every declared param key must be
present in the argument map. -/
def checkParamsPresent (args : List (String × Json)) :
    List (String × Param) → Except ArgumentsCheckError Unit
  | [] => .ok ()
  | (key, _) :: rest =>
    if (lookupStr args key).isSome then checkParamsPresent args rest
    else .error (.notFound key)

/-- Second loop of `Task::check_args`: every supplied argument must name a
declared param and satisfy its type predicate. -/
def checkArgsTyped (params : List (String × Param)) :
    List (String × Json) → Except ArgumentsCheckError Unit
  | [] => .ok ()
  | (key, value) :: rest =>
    match lookupStr params key with
    | none => .error (.notFound key)
    | some param =>
      match check_type param.ty value with
      | .error e => .error (.typeError key e)
      | .ok () => checkArgsTyped params rest

/-! ### Templates and the render context

Handlebars template strings are modelled pre-parsed: a template is a list
of literal pieces and `{{dotted.access.path}}` variables.  Rendering looks
the access path up in a JSON context; a missing path renders as the empty
string (handlebars' non-strict default).  How handlebars prints non-string
values is irrelevant to the claims and is fixed arbitrarily.
-/

inductive TmplPart where
  | lit (s : String)
  | var (accessPath : List String)
deriving Repr, DecidableEq

abbrev Template := List TmplPart

def lookupJson : Json → List String → Option Json
  | v, [] => some v
  | .obj fields, k :: ks =>
    match fields.find? (fun f => f.1 == k) with
    | some f => lookupJson f.2 ks
    | none => none
  | _, _ :: _ => none

def jsonToString : Json → String
  | .null => ""
  | .bool b => toString b
  | .num n => toString n
  | .str s => s
  | .arr _ => "[array]"
  | .obj _ => "[object]"

def renderTemplate (ctx : Json) : Template → String
  | [] => ""
  | .lit s :: rest => s ++ renderTemplate ctx rest
  | .var p :: rest =>
    (match lookupJson ctx p with
     | some v => jsonToString v
     | none => "") ++ renderTemplate ctx rest

/-- Modelled from the spec: `BirbRenderContext { args, env }` — the render
context every instantiation-time template is rendered against; its struct
definition lives in the crate's `task` module root, which is absent from
the source snapshot (only its users are present).  Per §4.2 the context
exposes the argument map under `args` and the environment under `env`. -/
def birbRenderContext (args env : List (String × Json)) : Json :=
  .obj [("args", .obj args), ("env", .obj env)]

/-- Templated JSON: argument values of a dep invocation are JSON whose
strings may contain template markers. -/
inductive TJson where
  | null
  | bool (b : Bool)
  | num (n : Int)
  | str (s : Template)
  | arr (items : List TJson)
  | obj (fields : List (String × TJson))

/-- `instantiate_json_value`: strings render then re-parse as JSON (falling
back to the rendered string); arrays and objects recurse; primitives pass
through.  The `serde_json::from_str` re-parse is abstracted as the oracle
`reparse`. -/
def instantiateJsonValue (reparse : String → Option Json) (ctx : Json) : TJson → Json
  | .null => .null
  | .bool b => .bool b
  | .num n => .num n
  | .str s =>
    let rendered := renderTemplate ctx s
    (reparse rendered).getD (.str rendered)
  | .arr items => .arr (items.attach.map (fun w => instantiateJsonValue reparse ctx w.1))
  | .obj fields =>
    .obj (fields.attach.map (fun f => (f.1.1, instantiateJsonValue reparse ctx f.1.2)))
decreasing_by
  all_goals simp_wf
  · have h := List.sizeOf_lt_of_mem w.2
    omega
  · have h := List.sizeOf_lt_of_mem f.2
    have h2 : sizeOf f.1.2 < sizeOf f.1 := by
      obtain ⟨⟨a, b⟩, hf⟩ := f
      simp
    omega

/-- `TaskRef` from `src/task/task_ref.rs` (templated side). -/
inductive TaskRef where
  | name (n : Template)
  | imported (fromAlias : String) (n : Template)

/-- Rendered `TaskRef`. -/
inductive RTaskRef where
  | name (n : String)
  | imported (fromAlias : String) (n : String)
deriving Repr, DecidableEq

/-- `TaskRef::instantiate`: the name parts are rendered against the
`{args, env}` context; the import alias `from` is NOT templated. -/
def TaskRef.instantiate (r : TaskRef) (args env : List (String × Json)) : RTaskRef :=
  match r with
  | .name n => .name (renderTemplate (birbRenderContext args env) n)
  | .imported fromAlias n =>
    .imported fromAlias (renderTemplate (birbRenderContext args env) n)

/-- `TaskInvocation<TaskRef>` (templated side). -/
structure TaskInvocation where
  ref : TaskRef
  args : List (String × TJson)

structure RTaskInvocation where
  ref : RTaskRef
  args : List (String × Json)

/-- Modelled from the spec: the env-aware `TaskInvocation::instantiate`
(the file `src/task/invocation.rs` in the snapshot predates the `env`
parameter its caller `Dep::instantiate` passes).  Per §4.2 the ref's name
parts and every argument JSON value are rendered against `{args, env}`. -/
def TaskInvocation.instantiate (inv : TaskInvocation) (reparse : String → Option Json)
    (args env : List (String × Json)) : RTaskInvocation :=
  { ref := inv.ref.instantiate args env,
    args := inv.args.map
      (fun kv => (kv.1, instantiateJsonValue reparse (birbRenderContext args env) kv.2)) }

/-- `Dep` from `src/task/task.rs` (templated side). -/
structure Dep where
  invocation : TaskInvocation
  id : Option String
  after : List String

structure RDep where
  invocation : RTaskInvocation
  id : Option String
  after : List String

/-- `Dep::instantiate`: the invocation is instantiated, `id` and `after`
are cloned. -/
def Dep.instantiate (d : Dep) (reparse : String → Option Json)
    (args env : List (String × Json)) : RDep :=
  { invocation := d.invocation.instantiate reparse args env,
    id := d.id, after := d.after }

/-- `OutputPath` (templated side). -/
inductive OutputPath where
  | file (p : Template)
  | directory (p : Template)

inductive ROutputPath where
  | file (p : String)
  | directory (p : String)
deriving Repr, DecidableEq

/-- `OutputPath::instantiate`: renders the path against `{args, env}`,
preserving the file/directory tag. -/
def OutputPath.instantiate (o : OutputPath) (args env : List (String × Json)) : ROutputPath :=
  match o with
  | .file p => .file (renderTemplate (birbRenderContext args env) p)
  | .directory p => .directory (renderTemplate (birbRenderContext args env) p)

/-- `Command::Shell` (templated side). -/
inductive Command where
  | shell (script : Template)

/-- `Command::instantiate` from `src/command.rs`: renders the script
against `{args, env}`.  The rendered command is its shell script string. -/
def Command.instantiate (c : Command) (args env : List (String × Json)) : String :=
  match c with
  | .shell script => renderTemplate (birbRenderContext args env) script

/-- `TaskBody` (templated side), from `src/task/task.rs`. -/
structure TaskBody where
  env : List (String × Json)
  workdir : Template
  phony : Bool
  outputs : List OutputPath
  sources : List Template
  deps : List Dep
  steps : List Command
  clean : Option (List Command)

/-- `Task` (definition side). -/
structure Task where
  name : String
  description : Option String
  params : List (String × Param)
  body : TaskBody

/-- Rendered task body: same shape, every templated field a string. -/
structure RTaskBody where
  env : List (String × Json)
  workdir : String
  phony : Bool
  outputs : List ROutputPath
  sources : List String
  deps : List RDep
  steps : List String
  clean : Option (List String)

structure InstantiatedTask where
  name : String
  body : RTaskBody

/-- `Task::check_args` from `src/task/instantiation.rs`: first every param
must be supplied, then every supplied argument must name a param and pass
its type predicate.  No defaults are consulted. -/
def check_args (task : Task) (args : List (String × Json)) :
    Except ArgumentsCheckError Unit :=
  match checkParamsPresent args task.params with
  | .error e => .error e
  | .ok () => checkArgsTyped task.params args

/-- `Task::instantiate`.  The argument check is the source's
`check_args`; the per-field rendering composes the source's
`OutputPath::instantiate`, `Dep::instantiate` and `Command::instantiate`.
Modelled from the spec: the wrapper's own body (the version of
`src/task/instantiation.rs` in the snapshot predates the env-aware data
model it must call into), which per §4.2 renders `workdir` and each
`source` against the same `{args, env}` context and copies `phony` and the
task-level `env`.  Template render errors are unrepresentable in the
pre-parsed template model, so the only failure is the argument check. -/
def Task.instantiate (task : Task) (reparse : String → Option Json)
    (args env : List (String × Json)) :
    Except ArgumentsCheckError InstantiatedTask :=
  match check_args task args with
  | .error e => .error e
  | .ok () =>
    let ctx := birbRenderContext args env
    .ok
      { name := task.name,
        body :=
          { env := task.body.env,
            workdir := renderTemplate ctx task.body.workdir,
            phony := task.body.phony,
            outputs := task.body.outputs.map (fun o => o.instantiate args env),
            sources := task.body.sources.map (renderTemplate ctx),
            deps := task.body.deps.map (fun d => d.instantiate reparse args env),
            steps := task.body.steps.map (fun c => c.instantiate args env),
            clean := task.body.clean.map (fun cs => cs.map (fun c => c.instantiate args env)) } }

/-- The property claim C6 asserts of a successful instantiation: every
templated field of the body — the workdir, each source, each output path
(tag preserved), each step and clean-step script, and each dependency's
ref name and argument JSON values — equals its template rendered against
the one `{args, env}` context, and that context exposes the argument map
under the `args.` access path and the environment under `env.`. -/
def RendersAllFields (reparse : String → Option Json) (task : Task)
    (args env : List (String × Json)) (it : InstantiatedTask) : Prop :=
  let ctx := birbRenderContext args env
  it.body.workdir = renderTemplate ctx task.body.workdir ∧
  it.body.sources = task.body.sources.map (fun s => renderTemplate ctx s) ∧
  it.body.outputs = task.body.outputs.map
    (fun o =>
      match o with
      | .file p => ROutputPath.file (renderTemplate ctx p)
      | .directory p => ROutputPath.directory (renderTemplate ctx p)) ∧
  it.body.steps = task.body.steps.map
    (fun c => match c with | .shell s => renderTemplate ctx s) ∧
  it.body.clean = task.body.clean.map
    (fun cs => cs.map (fun c => match c with | .shell s => renderTemplate ctx s)) ∧
  it.body.deps = task.body.deps.map
    (fun d =>
      { invocation :=
          { ref :=
              match d.invocation.ref with
              | .name n => RTaskRef.name (renderTemplate ctx n)
              | .imported a n => RTaskRef.imported a (renderTemplate ctx n),
            args := d.invocation.args.map
              (fun kv => (kv.1, instantiateJsonValue reparse ctx kv.2)) },
        id := d.id, after := d.after }) ∧
  (∀ k v, lookupStr args k = some v → lookupJson ctx ["args", k] = some v) ∧
  (∀ k v, lookupStr env k = some v → lookupJson ctx ["env", k] = some v)

end Inst

/-! ## Subprocess executor configuration

Embedding of the spawn configuration of `NaiveExecutor::exec_shell`
(`src/run/execution/naive.rs`) and of the env merge performed by
`maybe_run_single_task` (`src/run/execution.rs`).  The stdin/stdout/stderr
and cwd settings are in the snapshot's source; the application of the
merged env to the child is `Modelled from the spec:` the env-aware
`CommandExecutor::execute` body is absent from the snapshot (the trait in
`execution.rs` takes the env, the `naive.rs` file predates that
parameter), and §4.6 says the child's environment is set to the merged
map.  `shlex::split` is abstracted as whitespace splitting and the shebang
temp file path is a parameter.
-/

inductive StdioCfg where
  | nullDev
  | piped
deriving Repr, DecidableEq

structure ChildConfig where
  program : String
  args : List String
  cwd : String
  env : List (String × Json)
  stdinCfg : StdioCfg
  stdoutCfg : StdioCfg
  stderrCfg : StdioCfg

/-- `LinkedHashMap::insert`: update the value in place when the key exists,
append otherwise. -/
def lhmInsert (m : List (String × Json)) (k : String) (v : Json) :
    List (String × Json) :=
  if m.any (fun e => e.1 == k) then
    m.map (fun e => if e.1 == k then (k, v) else e)
  else m ++ [(k, v)]

/-- `LinkedHashMap::extend`: insert every entry of `adds` in order. -/
def lhmExtend (m adds : List (String × Json)) : List (String × Json) :=
  adds.foldl (fun acc e => lhmInsert acc e.1 e.2) m

/-- The env merge of `maybe_run_single_task`:
`let mut env = current.env.clone(); env.extend(task.body.env.clone());`. -/
def mergedEnv (taskfileEnv taskEnv : List (String × Json)) : List (String × Json) :=
  lhmExtend taskfileEnv taskEnv

/-- The spawn configuration `exec_shell` builds for one `Shell` step:
shebang scripts run under their interpreter with the temp file appended,
anything else under `sh -c`; stdin is null, stdout and stderr are piped,
the cwd is the caller-supplied workdir and the environment the
caller-supplied (merged) map. -/
def exec_shell_config (tmpPath : String) (pwd : String)
    (env : List (String × Json)) (cmd : String) : ChildConfig :=
  let firstLine := (cmd.splitOn "\n").headD ""
  let pa :=
    if firstLine.startsWith "#!" then
      let interp := ((firstLine.drop 2).trim.splitOn " ").filter (fun s => s ≠ "")
      (interp.headD "", interp.tail ++ [tmpPath])
    else
      ("sh", ["-c", cmd])
  { program := pa.1, args := pa.2, cwd := pwd, env := env,
    stdinCfg := .nullDev, stdoutCfg := .piped, stderrCfg := .piped }

/-! ## Workspace loading and task resolution

Embedding of `Workspace::load_taskfile` and `Workspace::resolve_task`
(`src/task/workspace.rs`).  Canonical taskfile paths (`TaskfileId`) are
abstracted to `Nat`; the front-end search, canonicalization and parsing
collapse into the pure oracle `disk : Nat → Option TaskfileSrc` (the
`Taskfile` struct itself is defined in the crate's `task` module root,
absent from the snapshot; its shape is §3 of the spec).  Task definitions
are abstracted to their names — nothing in loading or resolution reads a
task body.  The unbounded recursion through imports is driven by fuel; all
theorems condition on a successful (`some`) outcome.
-/

inductive TaskfileImportRef where
  | unresolved (path : Nat)
  | resolved (id : Nat)
deriving Repr, DecidableEq

structure TaskfileSrc where
  imports : List (String × TaskfileImportRef)
  tasks : List String
deriving Repr, DecidableEq

structure Taskfile where
  id : Nat
  imports : List (String × TaskfileImportRef)
  tasks : List String
deriving Repr, DecidableEq

abbrev Workspace := List (Nat × Taskfile)

def wsFind (ws : Workspace) (i : Nat) : Option Taskfile :=
  (ws.find? (fun e => e.1 == i)).map (·.2)

/-- The write-back `self.tasks.get_mut(&id)..imports = imports`. -/
def wsSetImports (ws : Workspace) (i : Nat)
    (imps : List (String × TaskfileImportRef)) : Workspace :=
  ws.map (fun e => if e.1 = i then (e.1, ⟨e.2.id, imps, e.2.tasks⟩) else e)

mutual

/-- `Workspace::load_taskfile`: return the cached id when the canonical
path is already loaded; otherwise load from disk, insert, resolve each
entry of the taskfile's imports (recursively loading `Unresolved` ones),
and write the resolved list back. -/
def load_taskfile (disk : Nat → Option TaskfileSrc) :
    Nat → Workspace → Nat → Option (Workspace × Nat)
  | 0, _, _ => none
  | fuel+1, ws, path =>
    match wsFind ws path with
    | some _ => some (ws, path)
    | none =>
      match disk path with
      | none => none
      | some src =>
        let ws₁ := (path, ⟨path, src.imports, src.tasks⟩) :: ws
        match resolveImports disk fuel ws₁ src.imports with
        | none => none
        | some (ws₂, imports') => some (wsSetImports ws₂ path imports', path)

/-- The `for (_import_name, import) in &mut imports` loop: an already
`Resolved` import must be present (the source `assert!`s), an `Unresolved`
one is loaded and rewritten. -/
def resolveImports (disk : Nat → Option TaskfileSrc) :
    Nat → Workspace → List (String × TaskfileImportRef) →
    Option (Workspace × List (String × TaskfileImportRef))
  | 0, _, _ => none
  | _+1, ws, [] => some (ws, [])
  | fuel+1, ws, (name, ref) :: rest =>
    match ref with
    | .resolved id =>
      if (wsFind ws id).isSome then
        match resolveImports disk fuel ws rest with
        | some (ws', rest') => some (ws', (name, .resolved id) :: rest')
        | none => none
      else none
    | .unresolved path =>
      match load_taskfile disk fuel ws path with
      | some (ws₁, id) =>
        match resolveImports disk fuel ws₁ rest with
        | some (ws', rest') => some (ws', (name, .resolved id) :: rest')
        | none => none
      | none => none

end

/-- A workspace produced solely by successful `load_taskfile` calls,
starting from the empty workspace `Workspace::new` builds. -/
inductive LoadedFrom (disk : Nat → Option TaskfileSrc) : Workspace → Prop where
  | empty : LoadedFrom disk []
  | step {ws ws' : Workspace} {fuel path id : Nat} :
      LoadedFrom disk ws → load_taskfile disk fuel ws path = some (ws', id) →
      LoadedFrom disk ws'

/-- A syntactic task reference as `resolve_task` receives it. -/
inductive WsTaskRef where
  | name (n : String)
  | imported (fromAlias : String) (n : String)
deriving Repr, DecidableEq

/-- The `panic!("Unresolved import path: ..")` branch of `resolve_task`. -/
inductive ResolvePanic where
  | unresolvedImport (path : Nat)
deriving Repr, DecidableEq

/-- `Workspace::resolve_task`: `Name` looks up in the current taskfile;
`Imported` dereferences the alias (panicking on an `Unresolved` import)
and looks up in the defining taskfile.  `None` when either level is
absent. -/
def resolve_task (ws : Workspace) (current : Taskfile) :
    WsTaskRef → Except ResolvePanic (Option (Taskfile × String))
  | .name n =>
    .ok (if current.tasks.contains n then some (current, n) else none)
  | .imported fromAlias n =>
    match lookupStr current.imports fromAlias with
    | none => .ok none
    | some (.unresolved path) => .error (.unresolvedImport path)
    | some (.resolved id) =>
      match wsFind ws id with
      | none => .ok none
      | some tf => .ok (if tf.tasks.contains n then some (tf, n) else none)

/-! ## Concurrent scheduler

Embedding of `TaskTreeQueue` and `execute_tasks_concurrently`
(`src/run/execution/scheduler.rs`).  The async pump becomes a fuel-driven
state machine: job outcomes are decided by the pure oracle `fails`, the
order in which `join_next` observes completions by the oracle `pick`
(an index into the running list), and successive `run_while()` answers by
a list of booleans (exhaustion answering `true`).  The pump returns its
result together with the list of jobs it spawned, in spawn order.
-/

structure TaskTreeQueue where
  queue : List (Node × List Node)
  parents : List (Node × List Node)
deriving Repr, DecidableEq

inductive Poll3 where
  | pending
  | readyNone
  | readySome (t : Node)
deriving Repr, DecidableEq

/-- `TaskTreeQueue::take_next_ready_task`. -/
def takeNextReady (tq : TaskTreeQueue) : Poll3 × TaskTreeQueue :=
  if tq.queue.isEmpty then (.readyNone, tq)
  else
    match tq.queue.find? (fun e => e.2.isEmpty) with
    | none => (.pending, tq)
    | some e =>
      (.readySome e.1, { tq with queue := tq.queue.eraseP (fun q => q.1 == e.1) })

/-- `TaskTreeQueue::mark_fulfilled`; `none` models the
`assert!(deps.is_none(), "Task .. was not taken")` panic. -/
def markFulfilled (tq : TaskTreeQueue) (t : Node) : Option TaskTreeQueue :=
  if (tq.queue.find? (fun e => e.1 == t)).isSome then none
  else
    match tq.parents.find? (fun e => e.1 == t) with
    | none => some tq
    | some e =>
      some { queue := tq.queue.map
               (fun q => if q.1 ∈ e.2 then (q.1, q.2.filter (fun d => d ≠ t)) else q),
             parents := tq.parents.eraseP (fun q => q.1 == t) }

/-- `TaskTreeQueue::add` / `add_set`. -/
def tqAdd (tq : TaskTreeQueue) (t : Node) (deps : List Node) : TaskTreeQueue :=
  { queue := tq.queue ++ [(t, deps)],
    parents := deps.foldl
      (fun ps d =>
        if ps.any (fun e => e.1 == d) then
          ps.map (fun e => if e.1 == d then (e.1, e.2 ++ [t]) else e)
        else ps ++ [(d, [t])])
      tq.parents }

inductive PumpResult where
  | ok
  | interrupted
  | failed (failures : List Node)
  | stuck
  | panicked
  | fuelOut
deriving Repr, DecidableEq

/-- The `Ready(None)` arm: await every running job, collect failures; with
no failure the run is `Ok` unless interrupted, else the interrupted error. -/
def drainResult (fails : Node → Bool) (running : List Node)
    (interrupted : Bool) : PumpResult :=
  let failures := running.filter (fun t => fails t)
  if failures.isEmpty then
    if interrupted then .interrupted else .ok
  else .failed failures

mutual

/-- The pump loop of `execute_tasks_concurrently`.  While below the
concurrency bound it performs one feeding iteration (consulting
`run_while`, i.e. consuming one answer of `rws`); at the bound, or on
`Pending`, it awaits the completion `pick` selects. -/
def pump (fails : Node → Bool) (pick : List Node → Nat) :
    Nat → Nat → TaskTreeQueue → List Node → Bool → List Bool →
    PumpResult × List Node
  | 0, _, _, _, _, _ => (.fuelOut, [])
  | fuel+1, maxC, tq, running, interrupted, rws =>
    if running.length < maxC then
      -- one iteration of the feeding `while`
      if rws.headD true then
        match takeNextReady tq with
        | (.readySome t, tq') =>
          let r := pump fails pick fuel maxC tq' (running ++ [t]) interrupted rws.tail
          (r.1, t :: r.2)
        | (.readyNone, _) => (drainResult fails running interrupted, [])
        | (.pending, tq') =>
          -- break out of feeding and wait for a completion
          pumpAwait fails pick fuel maxC tq' running interrupted rws.tail
      else
        -- run_while() returned false: stop feeding, drain, report interruption
        (drainResult fails running true, [])
    else
      pumpAwait fails pick fuel maxC tq running interrupted rws

/-- The post-feeding await: `join_next` (empty running set is the
"no more running tasks, but queue is waiting" bail-out); a failed job
aborts everything and reports all failures, a successful one is marked
fulfilled and feeding resumes. -/
def pumpAwait (fails : Node → Bool) (pick : List Node → Nat) :
    Nat → Nat → TaskTreeQueue → List Node → Bool → List Bool →
    PumpResult × List Node
  | 0, _, _, _, _, _ => (.fuelOut, [])
  | fuel+1, maxC, tq, running, interrupted, rws =>
    match running with
    | [] => (.stuck, [])
    | _ =>
      let i := pick running % running.length
      let t := running.getD i 0
      let rest := running.eraseIdx i
      if fails t then (.failed (t :: rest.filter (fun u => fails u)), [])
      else
        match markFulfilled tq t with
        | none => (.panicked, [])
        | some tq' => pump fails pick fuel maxC tq' rest interrupted rws

end

/-- `execute_tasks_concurrently`: build the queue from the sorted list and
the dependency graph, then run the pump. -/
def execute_tasks_concurrently (fails : Node → Bool) (pick : List Node → Nat)
    (fuel maxC : Nat) (queue : List Node) (depsGraph : Graph)
    (rws : List Bool) : PumpResult × List Node :=
  let tq := queue.foldl (fun tq t => tqAdd tq t ((Graph.succs depsGraph t).getD [])) ⟨[], []⟩
  pump fails pick fuel maxC tq [] false rws

/-! ### Correctness of the DFS ordering -/

example : topological_sort [(0, [1]), (1, [])] = .ok [0, 1] := rfl

example : topological_sort [(2, [0, 1]), (0, []), (1, [0])] = .ok [2, 1, 0] := rfl

example : (topological_sort [(0, [1]), (1, [0])]).isOk = false := rfl

theorem indexOf_append_left {x : Node} {l₁ l₂ : List Node} (h : x ∈ l₁) :
    (l₁ ++ l₂).indexOf x = l₁.indexOf x := by
  induction l₁ with
  | nil => cases h
  | cons a l ih =>
    by_cases hax : a = x
    · subst hax; simp [List.indexOf_cons_self]
    · have hx : x ∈ l := by
        cases h with
        | head => exact absurd rfl hax
        | tail _ h => exact h
      simp [List.indexOf_cons_ne _ hax, ih hx]

theorem indexOf_concat_self {a : Node} {l : List Node} (h : a ∉ l) :
    (l ++ [a]).indexOf a = l.length := by
  induction l with
  | nil => simp
  | cons b l ih =>
    have hba : b ≠ a := fun hc => h (hc ▸ List.mem_cons_self b l)
    have ha : a ∉ l := fun hc => h (List.mem_cons_of_mem _ hc)
    simp [List.indexOf_cons_ne _ hba, ih ha]

theorem indexOf_lt_length_of_mem {a : Node} {l : List Node} (h : a ∈ l) :
    l.indexOf a < l.length := List.indexOf_lt_length.mpr h

/-- The post-order output discipline of `visit_node`: every node in the
output vector was pushed after all of its graph successors. -/
def OrderOK (g : Graph) (l : List Node) : Prop :=
  ∀ x ∈ l, ∀ y ∈ (Graph.succs g x).getD [], y ∈ l ∧ l.indexOf y < l.indexOf x

/-- Invariant relating the `visited` set and the `result` vector. -/
structure VisitInv (g : Graph) (s : VisitState) : Prop where
  mem : ∀ x, x ∈ s.visited ↔ x ∈ s.result
  nodup : s.result.Nodup
  order : OrderOK g s.result

/-- What one successful `visit_node` call guarantees. -/
def NodeConc (g : Graph) (visiting : List Node) (s s' : VisitState) (n : Node) : Prop :=
  VisitInv g s' ∧ (∃ t, s'.result = s.result ++ t) ∧ n ∈ s'.result ∧
    ∀ x ∈ s'.result, x ∈ s.result ∨ x ∉ visiting

/-- What one successful run of the dependency loop guarantees. -/
def ListConc (g : Graph) (visiting : List Node) (s s' : VisitState) (ds : List Node) : Prop :=
  VisitInv g s' ∧ (∃ t, s'.result = s.result ++ t) ∧ (∀ d ∈ ds, d ∈ s'.result) ∧
    ∀ x ∈ s'.result, x ∈ s.result ∨ x ∉ visiting

theorem visit_spec (fuel : Nat) :
    (∀ g n visiting s s', visitNode fuel g n visiting s = .ok s' → VisitInv g s →
      NodeConc g visiting s s' n) ∧
    (∀ g ds visiting s s', visitList fuel g ds visiting s = .ok s' → VisitInv g s →
      ListConc g visiting s s' ds) := by
  induction fuel with
  | zero =>
    constructor <;> (intro g a visiting s s' h _; simp [visitNode, visitList] at h)
  | succ fuel ih =>
    obtain ⟨ihN, ihL⟩ := ih
    constructor
    · -- visitNode (fuel+1)
      intro g node visiting s s' h inv
      rw [visitNode] at h
      by_cases hgray : node ∈ visiting
      · simp [hgray] at h
      by_cases hblack : node ∈ s.visited
      · simp [hgray, hblack] at h
        refine ⟨h ▸ inv, ⟨[], by simp [h]⟩, ?_, ?_⟩
        · exact h ▸ (inv.mem node).mp hblack
        · intro x hx
          exact Or.inl (h ▸ hx)
      · simp only [if_neg hgray, if_neg hblack] at h
        cases hrec : visitList fuel g ((Graph.succs g node).getD []) (node :: visiting) s with
        | error e => rw [hrec] at h; exact absurd h (by simp)
        | ok s₁ =>
          rw [hrec] at h
          simp only [Except.ok.injEq] at h
          subst h
          obtain ⟨inv₁, ⟨t, ht⟩, hdeps, hnew⟩ := ihL g _ _ s s₁ hrec inv
          have hnotmem : node ∉ s₁.result := by
            intro hc
            rcases hnew node hc with hc₁ | hc₂
            · exact hblack ((inv.mem node).mpr hc₁)
            · exact hc₂ (List.mem_cons_self _ _)
          have hnodup' : (s₁.result ++ [node]).Nodup := by
            simp [List.nodup_append, inv₁.nodup, hnotmem]
          refine ⟨⟨?_, hnodup', ?_⟩, ⟨t ++ [node], by simp [ht]⟩, ?_, ?_⟩
          · intro x
            simp only [List.mem_cons, List.mem_append, List.mem_singleton, inv₁.mem x]
            tauto
          · -- OrderOK for the extended result
            intro x hx y hy
            simp only [List.mem_append, List.mem_singleton] at hx
            rcases hx with hx | hx
            · obtain ⟨hymem, hylt⟩ := inv₁.order x hx y hy
              refine ⟨List.mem_append_left _ hymem, ?_⟩
              show (s₁.result ++ [node]).indexOf y < (s₁.result ++ [node]).indexOf x
              rw [indexOf_append_left hymem, indexOf_append_left hx]
              exact hylt
            · have hyr : y ∈ s₁.result := hdeps y (by rw [hx] at hy; exact hy)
              refine ⟨List.mem_append_left _ hyr, ?_⟩
              show (s₁.result ++ [node]).indexOf y < (s₁.result ++ [node]).indexOf x
              rw [hx, indexOf_append_left hyr, indexOf_concat_self hnotmem]
              exact indexOf_lt_length_of_mem hyr
          · simp
          · intro x hx
            simp only [List.mem_append, List.mem_singleton] at hx
            rcases hx with hx | hx
            · rcases hnew x hx with h₁ | h₂
              · exact Or.inl h₁
              · exact Or.inr (fun hc => h₂ (List.mem_cons_of_mem _ hc))
            · rw [hx]; exact Or.inr hgray
    · -- visitList (fuel+1)
      intro g ds visiting s s' h inv
      cases ds with
      | nil =>
        rw [visitList] at h
        simp only [Except.ok.injEq] at h
        exact ⟨h ▸ inv, ⟨[], by simp [h]⟩, by simp, fun x hx => Or.inl (h ▸ hx)⟩
      | cons d ds =>
        rw [visitList] at h
        cases hrec : visitNode fuel g d visiting s with
        | error e => rw [hrec] at h; exact absurd h (by simp)
        | ok s₁ =>
          rw [hrec] at h
          obtain ⟨inv₁, ⟨t₁, ht₁⟩, hd, hnew₁⟩ := ihN g d visiting s s₁ hrec inv
          obtain ⟨inv₂, ⟨t₂, ht₂⟩, hds, hnew₂⟩ := ihL g ds visiting s₁ s' h inv₁
          refine ⟨inv₂, ⟨t₁ ++ t₂, by rw [ht₂, ht₁, List.append_assoc]⟩, ?_, ?_⟩
          · intro x hx
            rcases List.mem_cons.mp hx with hx | hx
            · rw [hx, ht₂]; exact List.mem_append_left _ hd
            · exact hds x hx
          · intro x hx
            rcases hnew₂ x hx with h₁ | h₂
            · exact hnew₁ x h₁
            · exact Or.inr h₂

theorem topoFold_spec : ∀ (ns : List Node) (g : Graph) (s s' : VisitState),
    topoFold g ns s = .ok s' → VisitInv g s →
    VisitInv g s' ∧ (∃ t, s'.result = s.result ++ t) ∧ ∀ n ∈ ns, n ∈ s'.result := by
  intro ns
  induction ns with
  | nil =>
    intro g s s' h inv
    rw [topoFold] at h
    simp only [Except.ok.injEq] at h
    exact ⟨h ▸ inv, ⟨[], by simp [h]⟩, by simp⟩
  | cons n ns ih =>
    intro g s s' h inv
    rw [topoFold] at h
    by_cases hb : n ∈ s.visited
    · rw [if_pos hb] at h
      obtain ⟨inv', ⟨t, ht⟩, hns⟩ := ih g s s' h inv
      refine ⟨inv', ⟨t, ht⟩, ?_⟩
      intro m hm
      rcases List.mem_cons.mp hm with hm | hm
      · rw [hm, ht]; exact List.mem_append_left _ ((inv.mem n).mp hb)
      · exact hns m hm
    · rw [if_neg hb] at h
      cases hrec : visitNode (graphFuel g) g n [] s with
      | error e => rw [hrec] at h; exact absurd h (by simp)
      | ok s₁ =>
        rw [hrec] at h
        obtain ⟨inv₁, ⟨t₁, ht₁⟩, hn, _⟩ := (visit_spec (graphFuel g)).1 g n [] s s₁ hrec inv
        obtain ⟨inv', ⟨t₂, ht₂⟩, hns⟩ := ih g s₁ s' h inv₁
        refine ⟨inv', ⟨t₁ ++ t₂, by rw [ht₂, ht₁, List.append_assoc]⟩, ?_⟩
        intro m hm
        rcases List.mem_cons.mp hm with hm | hm
        · rw [hm, ht₂]; exact List.mem_append_left _ hn
        · exact hns m hm

theorem succs_eq_of_mem {g : Graph} {u : Node} {succs : List Node}
    (hnd : (g.map Prod.fst).Nodup) (h : (u, succs) ∈ g) :
    Graph.succs g u = some succs := by
  induction g with
  | nil => cases h
  | cons p g ih =>
    rcases List.mem_cons.mp h with h | h
    · rw [← h]
      show (List.find? (fun q => q.1 == u) ((u, succs) :: g)).map (·.2) = some succs
      rw [List.find?_cons_of_pos _ (by simp)]
      rfl
    · have hne : p.1 ≠ u := by
        intro hc
        have hmem : u ∈ g.map Prod.fst := List.mem_map.mpr ⟨(u, succs), h, rfl⟩
        rw [List.map_cons, List.nodup_cons] at hnd
        exact hnd.1 (hc ▸ hmem)
      have hrec := ih (by rw [List.map_cons, List.nodup_cons] at hnd; exact hnd.2) h
      show (List.find? (fun q => q.1 == u) (p :: g)).map (·.2) = some succs
      rw [List.find?_cons_of_neg _ (by simp [hne])]
      exact hrec

theorem indexOf_eq_of_getElem? {l : List Node} {x : Node} {i : Nat}
    (hnd : l.Nodup) (h : l[i]? = some x) : l.indexOf x = i := by
  induction l generalizing i with
  | nil => simp at h
  | cons a l ih =>
    cases i with
    | zero =>
      simp only [List.getElem?_cons_zero, Option.some.injEq] at h
      subst h; simp
    | succ i =>
      simp only [List.getElem?_cons_succ] at h
      have hx : x ∈ l := List.getElem?_mem h
      have hax : a ≠ x := by
        intro hc
        rw [List.nodup_cons] at hnd
        exact hnd.1 (hc ▸ hx)
      rw [List.nodup_cons] at hnd
      simp [List.indexOf_cons_ne _ hax, ih hnd.2 h]

theorem getElem?_of_indexOf {l : List Node} {x : Node} (h : x ∈ l) :
    l[l.indexOf x]? = some x := by
  induction l with
  | nil => cases h
  | cons a l ih =>
    by_cases hax : a = x
    · subst hax; simp
    · have hx : x ∈ l := by
        cases h with
        | head => exact absurd rfl hax
        | tail _ h => exact h
      simp [List.indexOf_cons_ne _ hax, ih hx]

theorem indexOf_reverse_flip {l : List Node} {x y : Node} (hnd : l.Nodup)
    (hx : x ∈ l) (hy : y ∈ l) (hlt : l.indexOf x < l.indexOf y) :
    l.reverse.indexOf y < l.reverse.indexOf x := by
  have hndr : l.reverse.Nodup := List.nodup_reverse.mpr hnd
  have hxl : l.indexOf x < l.length := indexOf_lt_length_of_mem hx
  have hyl : l.indexOf y < l.length := indexOf_lt_length_of_mem hy
  have hgx : l.reverse[l.length - 1 - l.indexOf x]? = some x := by
    rw [List.getElem?_reverse (by omega)]
    have : l.length - 1 - (l.length - 1 - l.indexOf x) = l.indexOf x := by omega
    rw [this]
    exact getElem?_of_indexOf hx
  have hgy : l.reverse[l.length - 1 - l.indexOf y]? = some y := by
    rw [List.getElem?_reverse (by omega)]
    have : l.length - 1 - (l.length - 1 - l.indexOf y) = l.indexOf y := by omega
    rw [this]
    exact getElem?_of_indexOf hy
  rw [indexOf_eq_of_getElem? hndr hgx, indexOf_eq_of_getElem? hndr hgy]
  omega

/-- Shared correctness core for the C1 claim: on a successful
`topological_sort` run, every graph edge `u → v` has `u` strictly BEFORE
`v` in the returned (root-first) list, and the list has no duplicates. -/
theorem topological_sort_ok_edge {g : Graph} {l : List Node}
    (hnd : (g.map Prod.fst).Nodup) (h : topological_sort g = .ok l)
    {u v : Node} {succs : List Node} (he : (u, succs) ∈ g) (hv : v ∈ succs) :
    l.Nodup ∧ u ∈ l ∧ v ∈ l ∧ l.indexOf u < l.indexOf v := by
  rw [topological_sort] at h
  cases hfold : topoFold g (g.map (·.1)) ⟨[], []⟩ with
  | error e => rw [hfold] at h; exact absurd h (by simp)
  | ok s =>
    rw [hfold] at h
    simp only [Except.ok.injEq] at h
    have inv0 : VisitInv g ⟨[], []⟩ := ⟨by simp, List.nodup_nil, by intro x hx; cases hx⟩
    obtain ⟨inv, _, hkeys⟩ := topoFold_spec (g.map (·.1)) g ⟨[], []⟩ s hfold inv0
    have hu : u ∈ s.result := hkeys u (List.mem_map.mpr ⟨(u, succs), he, rfl⟩)
    have hsuccs : (Graph.succs g u).getD [] = succs := by
      rw [succs_eq_of_mem hnd he]; rfl
    obtain ⟨hvmem, hvlt⟩ := inv.order u hu v (hsuccs ▸ hv)
    subst h
    refine ⟨List.nodup_reverse.mpr inv.nodup, List.mem_reverse.mpr hu,
      List.mem_reverse.mpr hvmem, ?_⟩
    exact indexOf_reverse_flip inv.nodup hvmem hu hvlt

/-- C1 (amended): the claim said that in the list returned by
`topological_sort` every edge source `u` appears AFTER its dependency `v`
(leaves-first).  The code in fact reverses the DFS post-order before
returning, so the returned list is root-first: whenever `topological_sort`
succeeds (for a graph with duplicate-free keys, as a `LinkedHashMap`
guarantees), for every edge `u → v` the node `u` appears strictly BEFORE
`v` in the returned list; the leaves-first execution order is obtained by
the `run` driver iterating this list in reverse. -/
theorem C1_topological_sort_edge_order {g : Graph} {l : List Node}
    (hnd : (g.map Prod.fst).Nodup) (h : topological_sort g = .ok l)
    {u v : Node} {succs : List Node} (he : (u, succs) ∈ g) (hv : v ∈ succs) :
    u ∈ l ∧ v ∈ l ∧ l.indexOf u < l.indexOf v :=
  ⟨(topological_sort_ok_edge hnd h he hv).2.1,
   (topological_sort_ok_edge hnd h he hv).2.2.1,
   (topological_sort_ok_edge hnd h he hv).2.2.2⟩

/-- Witness for C1: on the graph `2 → 0, 2 → 1, 1 → 0` the sort returns
`[2, 1, 0]` and the edge `2 → 0` indeed has `2` before `0`. -/
theorem C1_topological_sort_edge_order_witness :
    (2 : Node) ∈ ([2, 1, 0] : List Node) ∧ (0 : Node) ∈ ([2, 1, 0] : List Node) ∧
      ([2, 1, 0] : List Node).indexOf 2 < ([2, 1, 0] : List Node).indexOf 0 :=
  @C1_topological_sort_edge_order [(2, [0, 1]), (0, []), (1, [0])] [2, 1, 0]
    (by decide) rfl 2 0 [0, 1] (by decide) (by decide)

/-- Counterexample to C1 as stated: the graph with the single edge `0 → 1`
(that is, `1` is a dependency of `0`) sorts to `ok [0, 1]`, in which the
edge source `0` does NOT appear after its dependency `1` — the returned
list is root-first, not leaves-first. -/
theorem C1_counterexample :
    topological_sort [(0, [1]), (1, [])] = .ok [0, 1] ∧
      ¬ ([0, 1] : List Node).indexOf 1 < ([0, 1] : List Node).indexOf 0 :=
  ⟨rfl, by decide⟩

/-! ### Up-to-date oracle: the `should_run` decision (C2) -/

theorem newestAux_spec (fs : FsModel) (ps : List Path)
    (hex : ∀ p ∈ ps, fs.pathExists p = true) :
    ∀ acc, ∃ r, newestAux fs (fun _ => none) ps acc = .ok r ∧
      ∀ x : Nat, (∃ t, r = some t ∧ x < t) ↔
        ((∃ t, acc = some t ∧ x < t) ∨ ∃ s ∈ ps, x < fs.mtime s) := by
  induction ps with
  | nil =>
    intro acc
    exact ⟨acc, rfl, by simp⟩
  | cons p ps ih =>
    intro acc
    have hexp : fs.pathExists p = true := hex p (List.mem_cons_self _ _)
    have hex' : ∀ q ∈ ps, fs.pathExists q = true :=
      fun q hq => hex q (List.mem_cons_of_mem _ hq)
    cases acc with
    | none =>
      have hstep : newestAux fs (fun _ => none) (p :: ps) none =
          newestAux fs (fun _ => none) ps (some (fs.mtime p)) := by
        rw [newestAux]; simp [hexp]
      obtain ⟨r, hr, hiff⟩ := ih hex' (some (fs.mtime p))
      refine ⟨r, by rw [hstep]; exact hr, ?_⟩
      intro x
      rw [hiff x]
      constructor
      · rintro (⟨t, ht, hx⟩ | ⟨s, hs, hx⟩)
        · simp only [Option.some.injEq] at ht
          exact Or.inr ⟨p, List.mem_cons_self _ _, by omega⟩
        · exact Or.inr ⟨s, List.mem_cons_of_mem _ hs, hx⟩
      · rintro (⟨t, ht, hx⟩ | ⟨s, hs, hx⟩)
        · cases ht
        · rcases List.mem_cons.mp hs with hsp | hsp
          · exact Or.inl ⟨fs.mtime p, rfl, by rw [← hsp]; exact hx⟩
          · exact Or.inr ⟨s, hsp, hx⟩
    | some oldest =>
      by_cases hgt : fs.mtime p > oldest
      · have hstep : newestAux fs (fun _ => none) (p :: ps) (some oldest) =
            newestAux fs (fun _ => none) ps (some (fs.mtime p)) := by
          rw [newestAux]; simp [hexp, hgt]
        obtain ⟨r, hr, hiff⟩ := ih hex' (some (fs.mtime p))
        refine ⟨r, by rw [hstep]; exact hr, ?_⟩
        intro x
        rw [hiff x]
        constructor
        · rintro (⟨t, ht, hx⟩ | ⟨s, hs, hx⟩)
          · simp only [Option.some.injEq] at ht
            exact Or.inr ⟨p, List.mem_cons_self _ _, by omega⟩
          · exact Or.inr ⟨s, List.mem_cons_of_mem _ hs, hx⟩
        · rintro (⟨t, ht, hx⟩ | ⟨s, hs, hx⟩)
          · simp only [Option.some.injEq] at ht
            exact Or.inl ⟨fs.mtime p, rfl, by omega⟩
          · rcases List.mem_cons.mp hs with hsp | hsp
            · exact Or.inl ⟨fs.mtime p, rfl, by rw [← hsp]; exact hx⟩
            · exact Or.inr ⟨s, hsp, hx⟩
      · have hstep : newestAux fs (fun _ => none) (p :: ps) (some oldest) =
            newestAux fs (fun _ => none) ps (some oldest) := by
          rw [newestAux]; simp [hexp, hgt]
        obtain ⟨r, hr, hiff⟩ := ih hex' (some oldest)
        refine ⟨r, by rw [hstep]; exact hr, ?_⟩
        intro x
        rw [hiff x]
        constructor
        · rintro (⟨t, ht, hx⟩ | ⟨s, hs, hx⟩)
          · exact Or.inl ⟨t, ht, hx⟩
          · exact Or.inr ⟨s, List.mem_cons_of_mem _ hs, hx⟩
        · rintro (⟨t, ht, hx⟩ | ⟨s, hs, hx⟩)
          · exact Or.inl ⟨t, ht, hx⟩
          · rcases List.mem_cons.mp hs with hsp | hsp
            · refine Or.inl ⟨oldest, rfl, ?_⟩
              rw [hsp] at hx
              omega
            · exact Or.inr ⟨s, hsp, hx⟩

theorem sourcesChangedAux_fst (fs : FsModel) (newest : Option Nat)
    (os : List OutputPath) :
    ∀ changed hashes,
      (sourcesChangedAux fs newest os changed hashes).1 =
        (changed ||
          os.any (fun o =>
            !fs.pathExists o.path ||
            (match newest with
             | some t => decide (fs.mtime o.path < t)
             | none => false))) := by
  induction os with
  | nil => intro changed hashes; simp [sourcesChangedAux]
  | cons o os ih =>
    intro changed hashes
    simp only [sourcesChangedAux]
    by_cases hexo : fs.pathExists o.path = false
    · rw [if_pos hexo, ih]
      simp [hexo]
    · have hexo' : fs.pathExists o.path = true := by
        cases h : fs.pathExists o.path
        · exact absurd h hexo
        · rfl
      rw [if_neg hexo, ih]
      cases newest with
      | none => simp [hexo']
      | some t =>
        by_cases hlt : fs.mtime o.path < t
        · simp [hexo', hlt, Bool.or_comm, Bool.or_assoc, Bool.or_left_comm]
        · simp [hexo', hlt]

/-- C2: `should_run` returns true for a task without declared outputs;
false for a task with outputs but no steps; and otherwise (with every
source present, on a fresh checker) it returns true exactly when some
output is missing, or some existing output is older than the newest source
mtime (equivalently: older than some source), or the task is phony.  In
particular a non-phony task with steps whose outputs all exist and are at
least as new as every source is skipped, and a task without outputs, or a
phony task with steps, always runs. -/
theorem C2_should_run_law (fs : FsModel) (task : InstantiatedTask)
    (hsrc : ∀ p ∈ task.resolveSources, fs.pathExists p = true) :
    ∃ b hashes, should_run fs (fun _ => none) task (fun _ => none) = .ok (b, hashes) ∧
      (b = true ↔
        (task.resolveOutputs = [] ∨
          (task.steps ≠ [] ∧
            ((∃ o ∈ task.resolveOutputs, fs.pathExists o.path = false) ∨
             (∃ o ∈ task.resolveOutputs, fs.pathExists o.path = true ∧
               ∃ s ∈ task.resolveSources, fs.mtime o.path < fs.mtime s) ∨
             task.phony = true)))) := by
  rw [should_run]
  by_cases hout : task.resolveOutputs.isEmpty
  · rw [if_pos hout]
    refine ⟨true, fun _ => none, rfl, ?_⟩
    simp [List.isEmpty_iff.mp hout]
  · rw [if_neg hout]
    have houtne : task.resolveOutputs ≠ [] := fun hc => hout (by simp [hc])
    by_cases hsteps : task.steps.isEmpty
    · rw [if_pos hsteps]
      refine ⟨false, fun _ => none, rfl, ?_⟩
      have : task.steps = [] := List.isEmpty_iff.mp hsteps
      simp [houtne, this]
    · rw [if_neg hsteps]
      have hstepsne : task.steps ≠ [] := fun hc => hsteps (by simp [hc])
      obtain ⟨r, hr, hiff⟩ := newestAux_spec fs task.resolveSources hsrc none
      rw [sourcesChanged, newestInputTimestamp, hr]
      refine ⟨_, _, rfl, ?_⟩
      rw [sourcesChangedAux_fst]
      simp only [Bool.false_or, Bool.or_eq_true, List.any_eq_true]
      constructor
      · rintro (⟨o, ho, hflag⟩ | hphony)
        · refine Or.inr ⟨hstepsne, ?_⟩
          simp only [Bool.or_eq_true, Bool.not_eq_true'] at hflag
          rcases hflag with hmiss | hstale
          · exact Or.inl ⟨o, ho, hmiss⟩
          · by_cases hex : fs.pathExists o.path = true
            · have hrt : ∃ t, r = some t ∧ fs.mtime o.path < t := by
                cases r with
                | none => simp at hstale
                | some t =>
                  simp only [decide_eq_true_eq] at hstale
                  exact ⟨t, rfl, hstale⟩
              rcases (hiff (fs.mtime o.path)).mp hrt with hfalse | hsrc'
              · simp at hfalse
              · exact Or.inr (Or.inl ⟨o, ho, hex, hsrc'⟩)
            · have : fs.pathExists o.path = false := by
                cases h : fs.pathExists o.path
                · rfl
                · exact absurd h hex
              exact Or.inl ⟨o, ho, this⟩
        · exact Or.inr ⟨hstepsne, Or.inr (Or.inr hphony)⟩
      · rintro (hc | ⟨_, hmiss | hstale | hphony⟩)
        · exact absurd hc houtne
        · obtain ⟨o, ho, hm⟩ := hmiss
          exact Or.inl ⟨o, ho, by simp [hm]⟩
        · obtain ⟨o, ho, hex, hsrc'⟩ := hstale
          have : ∃ t, r = some t ∧ fs.mtime o.path < t :=
            (hiff (fs.mtime o.path)).mpr (Or.inr hsrc')
          obtain ⟨t, ht, hlt⟩ := this
          refine Or.inl ⟨o, ho, ?_⟩
          rw [ht]
          simp [hlt]
        · exact Or.inr hphony

/-- Witness for C2: a non-phony task with one step, one source (mtime 3)
and one existing output (mtime 5): the instantiated law applies, and in
particular the task is skipped. -/
theorem C2_should_run_law_witness :
    ∃ b hashes,
      should_run
        ⟨fun _ => true, fun _ => true,
          fun p => if p = [Component.normal "src"] then 3 else 5, fun _ => 0⟩
        (fun _ => none)
        ⟨"build", [], [], false, [.file [.normal "out"]], [[.normal "src"]], ["cc"], none⟩
        (fun _ => none) = .ok (b, hashes) ∧
      (b = true ↔
        (InstantiatedTask.resolveOutputs
            ⟨"build", [], [], false, [.file [.normal "out"]], [[.normal "src"]], ["cc"], none⟩ = [] ∨
          (InstantiatedTask.steps
              ⟨"build", [], [], false, [.file [.normal "out"]], [[.normal "src"]], ["cc"], none⟩ ≠ [] ∧
            ((∃ o ∈ InstantiatedTask.resolveOutputs
                ⟨"build", [], [], false, [.file [.normal "out"]], [[.normal "src"]], ["cc"], none⟩,
                FsModel.pathExists
                  ⟨fun _ => true, fun _ => true,
                    fun p => if p = [Component.normal "src"] then 3 else 5, fun _ => 0⟩ o.path = false) ∨
             (∃ o ∈ InstantiatedTask.resolveOutputs
                ⟨"build", [], [], false, [.file [.normal "out"]], [[.normal "src"]], ["cc"], none⟩,
                FsModel.pathExists
                  ⟨fun _ => true, fun _ => true,
                    fun p => if p = [Component.normal "src"] then 3 else 5, fun _ => 0⟩ o.path = true ∧
                ∃ s ∈ InstantiatedTask.resolveSources
                  ⟨"build", [], [], false, [.file [.normal "out"]], [[.normal "src"]], ["cc"], none⟩,
                  FsModel.mtime
                    ⟨fun _ => true, fun _ => true,
                      fun p => if p = [Component.normal "src"] then 3 else 5, fun _ => 0⟩ o.path <
                  FsModel.mtime
                    ⟨fun _ => true, fun _ => true,
                      fun p => if p = [Component.normal "src"] then 3 else 5, fun _ => 0⟩ s) ∨
             InstantiatedTask.phony
               ⟨"build", [], [], false, [.file [.normal "out"]], [[.normal "src"]], ["cc"], none⟩ = true)))) :=
  C2_should_run_law _ _ (by intro p _; rfl)

/-! ### Up-to-date oracle: the `not_changed` bookkeeping of `check_outputs` (C3) -/

theorem notChangedUpdate_other (fs : FsModel) (oh : Path → Option Nat)
    (executed : Bool) (m : Path → Option Bool) (p q : Path) (hq : q ≠ p) :
    notChangedUpdate fs oh executed m p q = m q := by
  unfold notChangedUpdate
  by_cases hf : fs.isFile p = true
  · rw [if_pos hf]
    cases hoh : oh p with
    | none =>
      cases hm : m p with
      | none => simp [updOpt, hq]
      | some b => rfl
    | some pre =>
      cases hm : m p with
      | none => simp [updOpt, hq]
      | some b =>
        cases b
        · simp
        · simp [updOpt, hq]
  · rw [if_neg hf]

theorem notChangedUpdate_self (fs : FsModel) (oh : Path → Option Nat)
    (executed : Bool) (m : Path → Option Bool) (p : Path) :
    notChangedUpdate fs oh executed m p p =
      if fs.isFile p = true then
        (match oh p, m p with
         | none, prev => some (prev.getD false)
         | some _, some false => some false
         | some pre, _ => some (!executed || (fs.hashOf p == pre)))
      else m p := by
  unfold notChangedUpdate
  by_cases hf : fs.isFile p = true
  · rw [if_pos hf, if_pos hf]
    cases hoh : oh p with
    | none =>
      cases hm : m p with
      | none => simp [updOpt]
      | some b => simp [hm]
    | some pre =>
      cases hm : m p with
      | none => simp [updOpt]
      | some b => cases b <;> simp [hm, updOpt]
  · rw [if_neg hf, if_neg hf]

theorem checkOutputsStep_ok {fs : FsModel} {oh : Path → Option Nat}
    {executed : Bool} {newest : Option Nat} {m : Path → Option Bool}
    {o : OutputPath} {m₁ : Path → Option Bool}
    (h : checkOutputsStep fs oh executed newest m o = .ok m₁) :
    m₁ = notChangedUpdate fs oh executed m o.path := by
  simp only [checkOutputsStep] at h
  by_cases hex : fs.pathExists o.path = false
  · rw [if_pos hex] at h; exact absurd h (by simp)
  · rw [if_neg hex] at h
    cases newest with
    | none => exact (Except.ok.inj h).symm
    | some t =>
      by_cases hlt : fs.mtime o.path < t
      · exfalso
        have hcontra : (Except.error (TriggerErr.outputOlderThanSources o.path) :
            Except TriggerErr (Path → Option Bool)) = Except.ok m₁ := by
          rw [← h]; simp [hlt]
        exact absurd hcontra (by simp)
      · have hok : (Except.ok (notChangedUpdate fs oh executed m o.path) :
            Except TriggerErr (Path → Option Bool)) = Except.ok m₁ := by
          rw [← h]; simp [hlt]
        exact (Except.ok.inj hok).symm

theorem checkOutputsAux_spec (fs : FsModel) (oh : Path → Option Nat)
    (executed : Bool) (newest : Option Nat) :
    ∀ (os : List OutputPath) (m m' : Path → Option Bool),
      (os.map OutputPath.path).Nodup →
      checkOutputsAux fs oh executed newest os m = .ok m' →
      (∀ o ∈ os, m' o.path = notChangedUpdate fs oh executed m o.path o.path) ∧
      (∀ q, q ∉ os.map OutputPath.path → m' q = m q) := by
  intro os
  induction os with
  | nil =>
    intro m m' _ h
    rw [checkOutputsAux] at h
    have hm : m = m' := Except.ok.inj h
    exact ⟨by simp, fun q _ => by rw [hm]⟩
  | cons o os ih =>
    intro m m' hnd h
    rw [checkOutputsAux] at h
    cases hstep : checkOutputsStep fs oh executed newest m o with
    | error e => rw [hstep] at h; exact absurd h (by simp)
    | ok m₁ =>
      rw [hstep] at h
      have hm₁ : m₁ = notChangedUpdate fs oh executed m o.path := checkOutputsStep_ok hstep
      rw [List.map_cons, List.nodup_cons] at hnd
      obtain ⟨hin, hout⟩ := ih m₁ m' hnd.2 h
      constructor
      · intro o' ho'
        rcases List.mem_cons.mp ho' with ho' | ho'
        · rw [ho', hout o.path hnd.1, hm₁]
        · have hne : o'.path ≠ o.path := by
            intro hc
            exact hnd.1 (hc ▸ List.mem_map.mpr ⟨o', ho', rfl⟩)
          rw [hin o' ho', notChangedUpdate_self, notChangedUpdate_self]
          have heq : m₁ o'.path = m o'.path := by
            rw [hm₁]
            exact notChangedUpdate_other _ _ _ _ _ _ hne
          rw [heq]
      · intro q hq
        have hq1 : q ∉ os.map OutputPath.path := fun hc => hq (List.mem_cons_of_mem _ hc)
        have hq2 : q ≠ o.path := fun hc => hq (by rw [hc]; exact List.mem_cons_self _ _)
        rw [hout q hq1, hm₁, notChangedUpdate_other _ _ _ _ _ _ hq2]

/-- C3 (amended): the claim described the `not_changed` update as
"absent entry is set to false; an entry holding true is left as true; with
a pre-hash the entry becomes `!ran || post == pre`".  The code does the
opposite on two points: with a captured pre-hash an entry holding `false`
is the one left alone (an entry holding `true`, or absent, is overwritten
with `!ran || post == pre`), and only when NO pre-hash was captured is an
absent entry set to `false` (a present entry is then left unchanged).
Amended statement, proved for duplicate-free resolved output paths: for
each declared file output the final map holds exactly that value, and no
other path of the map is touched. -/
theorem C3_check_outputs_not_changed (fs : FsModel) (task : InstantiatedTask)
    (outputHashes : Path → Option Nat) (executed : Bool)
    (notChanged m' : Path → Option Bool)
    (hnd : (task.resolveOutputs.map OutputPath.path).Nodup)
    (h : check_outputs fs task outputHashes executed notChanged = .ok m') :
    (∀ o ∈ task.resolveOutputs, fs.isFile o.path = true →
      m' o.path =
        (match outputHashes o.path, notChanged o.path with
         | none, prev => some (prev.getD false)
         | some _, some false => some false
         | some pre, _ => some (!executed || (fs.hashOf o.path == pre)))) ∧
    (∀ q, q ∉ task.resolveOutputs.map OutputPath.path → m' q = notChanged q) := by
  rw [check_outputs] at h
  cases hnew : newestInputTimestamp fs notChanged task with
  | error e => rw [hnew] at h; exact absurd h (by simp)
  | ok newest =>
    rw [hnew] at h
    obtain ⟨hin, hout⟩ := checkOutputsAux_spec fs outputHashes executed newest
      task.resolveOutputs notChanged m' hnd h
    refine ⟨?_, hout⟩
    intro o ho hf
    rw [hin o ho, notChangedUpdate_self, if_pos hf]

/-- Witness for C3 (amended): the one-output task of the counterexample,
with a pre-hash `7`, previous entry `true`, post-hash `9` and `ran = true`. -/
theorem C3_check_outputs_not_changed_witness :
    (∀ o ∈ InstantiatedTask.resolveOutputs
        ⟨"t", [], [], false, [.file [.normal "out"]], [], [], none⟩,
      FsModel.isFile ⟨fun _ => true, fun _ => true, fun _ => 0, fun _ => 9⟩ o.path = true →
      updOpt (fun q => if q = [Component.normal "out"] then some true else none)
          [Component.normal "out"] false o.path =
        (match (fun q => if q = [Component.normal "out"] then some (7 : Nat) else none) o.path,
            (fun q => if q = [Component.normal "out"] then some true else none) o.path with
         | none, prev => some (prev.getD false)
         | some _, some false => some false
         | some pre, _ =>
            some (!true || (FsModel.hashOf ⟨fun _ => true, fun _ => true, fun _ => 0,
              fun _ => 9⟩ o.path == pre)))) ∧
    (∀ q, q ∉ (InstantiatedTask.resolveOutputs
        ⟨"t", [], [], false, [.file [.normal "out"]], [], [], none⟩).map OutputPath.path →
      updOpt (fun q => if q = [Component.normal "out"] then some true else none)
          [Component.normal "out"] false q =
        (fun q => if q = [Component.normal "out"] then some true else none) q) :=
  C3_check_outputs_not_changed
    ⟨fun _ => true, fun _ => true, fun _ => 0, fun _ => 9⟩
    ⟨"t", [], [], false, [.file [.normal "out"]], [], [], none⟩
    (fun q => if q = [Component.normal "out"] then some (7 : Nat) else none) true
    (fun q => if q = [Component.normal "out"] then some true else none)
    (updOpt (fun q => if q = [Component.normal "out"] then some true else none)
      [Component.normal "out"] false)
    (by decide) rfl

/-- Counterexample to C3 as stated: a file output whose `not_changed` entry
was `true`, with a captured pre-hash `7`, a post-run hash `9` and
`ran = true`.  The claim says the entry is "left as true"; the code
overwrites it with `!ran || post == pre`, which here is `false`. -/
theorem C3_counterexample :
    (check_outputs
        ⟨fun _ => true, fun _ => true, fun _ => 0, fun _ => 9⟩
        ⟨"t", [], [], false, [.file [.normal "out"]], [], [], none⟩
        (fun q => if q = [Component.normal "out"] then some (7 : Nat) else none) true
        (fun q => if q = [Component.normal "out"] then some true else none)).map
      (fun m => m [Component.normal "out"]) = .ok (some false) ∧
    some false ≠ (some true : Option Bool) :=
  ⟨rfl, by decide⟩

/-! ### Clean safety (C4) -/

/-- C4: the clean safety rail is `strip_prefix(&tasks.dir)`, a purely
syntactic component-wise check that never canonicalizes.  At the concrete
input below — taskfile directory `a`, declared output `a/../b` — the strip
succeeds, so clean removes the path, whose canonical form `b` is NOT a
descendant of `a`.  This contradicts the claim (and the source's own
comment that the check is there to "avoid deleting files that are not in
the current directory"). -/
theorem C4_clean_escape :
    clean_instantiated_task
        ⟨fun _ => true, fun _ => true, fun _ => 0, fun _ => 0⟩
        [Component.normal "a"]
        ⟨"t", [], [], false,
          [.file [Component.normal "a", Component.parentDir, Component.normal "b"]],
          [], [], none⟩ =
      ([[Component.normal "a", Component.parentDir, Component.normal "b"]], none) ∧
    canonicalizePath [Component.normal "a", Component.parentDir, Component.normal "b"] =
      [Component.normal "b"] ∧
    isUnderDir [Component.normal "a"]
      (canonicalizePath
        [Component.normal "a", Component.parentDir, Component.normal "b"]) = false :=
  ⟨rfl, rfl, rfl⟩

/-! ### Argument validation (C5) -/

theorem lookupStr_cons_self {β : Type _} (k : String) (v : β) (l : List (String × β)) :
    lookupStr ((k, v) :: l) k = some v := by
  simp [lookupStr, List.find?_cons_of_pos]

theorem lookupStr_cons_ne {β : Type _} {k q : String} (v : β) (l : List (String × β))
    (h : k ≠ q) : lookupStr ((k, v) :: l) q = lookupStr l q := by
  unfold lookupStr
  rw [List.find?_cons_of_neg _ (by simp [h])]

theorem lookupStr_isSome_iff_mem {β : Type _} (l : List (String × β)) (k : String) :
    (lookupStr l k).isSome = true ↔ k ∈ l.map Prod.fst := by
  induction l with
  | nil => simp [lookupStr]
  | cons e l ih =>
    obtain ⟨a, b⟩ := e
    by_cases hak : a = k
    · subst hak
      simp [lookupStr_cons_self]
    · rw [lookupStr_cons_ne _ _ hak, ih]
      simp only [List.map_cons, List.mem_cons]
      constructor
      · exact fun h => Or.inr h
      · rintro (h | h)
        · exact absurd h.symm hak
        · exact h

theorem checkParamsPresent_ok_iff (args : List (String × Json))
    (ps : List (String × Inst.Param)) :
    Inst.checkParamsPresent args ps = .ok () ↔
      ∀ kp ∈ ps, (lookupStr args kp.1).isSome = true := by
  induction ps with
  | nil => simp [Inst.checkParamsPresent]
  | cons kp rest ih =>
    obtain ⟨key, p⟩ := kp
    rw [Inst.checkParamsPresent]
    by_cases h : (lookupStr args key).isSome = true
    · rw [if_pos h, ih]
      constructor
      · intro hrest kq hkq
        rcases List.mem_cons.mp hkq with hkq | hkq
        · rw [hkq]; exact h
        · exact hrest kq hkq
      · intro hall kq hkq
        exact hall kq (List.mem_cons_of_mem _ hkq)
    · rw [if_neg h]
      constructor
      · intro hc; exact absurd hc (by simp)
      · intro hall
        exact absurd (hall (key, p) (List.mem_cons_self _ _)) h

theorem checkParamsPresent_error (args : List (String × Json))
    (ps : List (String × Inst.Param)) (e : Inst.ArgumentsCheckError)
    (h : Inst.checkParamsPresent args ps = .error e) :
    ∃ k, e = .notFound k ∧ (lookupStr args k).isNone = true ∧
      (lookupStr ps k).isSome = true := by
  induction ps with
  | nil => rw [Inst.checkParamsPresent] at h; exact absurd h (by simp)
  | cons kp rest ih =>
    obtain ⟨key, p⟩ := kp
    rw [Inst.checkParamsPresent] at h
    by_cases hk : (lookupStr args key).isSome = true
    · rw [if_pos hk] at h
      obtain ⟨k, he, hn, hs⟩ := ih h
      refine ⟨k, he, hn, ?_⟩
      by_cases hkk : key = k
      · subst hkk
        simp [lookupStr_cons_self]
      · rw [lookupStr_cons_ne _ _ hkk]
        exact hs
    · rw [if_neg hk] at h
      have he : e = .notFound key := (Except.error.inj h).symm
      refine ⟨key, he, ?_, ?_⟩
      · cases hh : lookupStr args key with
        | none => rfl
        | some v => exact absurd (by rw [hh]; rfl) hk
      · simp [lookupStr_cons_self]

theorem checkArgsTyped_ok_iff (params : List (String × Inst.Param))
    (as : List (String × Json)) :
    Inst.checkArgsTyped params as = .ok () ↔
      ∀ kv ∈ as, ∃ p, lookupStr params kv.1 = some p ∧
        Inst.check_type p.ty kv.2 = .ok () := by
  induction as with
  | nil => simp [Inst.checkArgsTyped]
  | cons kv rest ih =>
    obtain ⟨key, v⟩ := kv
    rw [Inst.checkArgsTyped]
    cases hp : lookupStr params key with
    | none =>
      simp only [hp]
      constructor
      · intro hc; exact absurd hc (by simp)
      · intro hall
        obtain ⟨p, hp', _⟩ := hall (key, v) (List.mem_cons_self _ _)
        rw [hp] at hp'; cases hp'
    | some param =>
      simp only [hp]
      cases hc : Inst.check_type param.ty v with
      | error err =>
        simp only [hc]
        constructor
        · intro hcon; exact absurd hcon (by simp)
        · intro hall
          obtain ⟨p, hp', hok⟩ := hall (key, v) (List.mem_cons_self _ _)
          rw [hp] at hp'
          have hpe : p = param := (Option.some.inj hp').symm
          rw [hpe, hc] at hok
          cases hok
      | ok u =>
        cases u
        simp only [hc]
        rw [ih]
        constructor
        · intro hrest kq hkq
          rcases List.mem_cons.mp hkq with hkq | hkq
          · rw [hkq]; exact ⟨param, hp, hc⟩
          · exact hrest kq hkq
        · intro hall kq hkq
          exact hall kq (List.mem_cons_of_mem _ hkq)

theorem checkArgsTyped_error (params : List (String × Inst.Param))
    (as : List (String × Json)) (ha : (as.map Prod.fst).Nodup)
    (e : Inst.ArgumentsCheckError) (h : Inst.checkArgsTyped params as = .error e) :
    (∃ k, e = .notFound k ∧ lookupStr params k = none ∧
      (lookupStr as k).isSome = true) ∨
    (∃ k err p v, e = .typeError k err ∧ lookupStr params k = some p ∧
      lookupStr as k = some v ∧ Inst.check_type p.ty v = .error err) := by
  induction as with
  | nil => rw [Inst.checkArgsTyped] at h; exact absurd h (by simp)
  | cons kv rest ih =>
    obtain ⟨key, v⟩ := kv
    rw [List.map_cons, List.nodup_cons] at ha
    rw [Inst.checkArgsTyped] at h
    cases hp : lookupStr params key with
    | none =>
      simp only [hp] at h
      have he : e = .notFound key := (Except.error.inj h).symm
      exact Or.inl ⟨key, he, hp, by simp [lookupStr_cons_self]⟩
    | some param =>
      simp only [hp] at h
      cases hc : Inst.check_type param.ty v with
      | error err =>
        simp only [hc] at h
        have he : e = .typeError key err := (Except.error.inj h).symm
        exact Or.inr ⟨key, err, param, v, he, hp, lookupStr_cons_self _ _ _, hc⟩
      | ok u =>
        cases u
        simp only [hc] at h
        rcases ih ha.2 h with ⟨k, he, hpn, hs⟩ | ⟨k, err, p, w, he, hpk, hak, hcw⟩
        · have hne : key ≠ k := by
            intro hck
            exact ha.1 (hck ▸ (lookupStr_isSome_iff_mem rest k).mp hs)
          refine Or.inl ⟨k, he, hpn, ?_⟩
          rw [lookupStr_cons_ne _ _ hne]
          exact hs
        · have hne : key ≠ k := by
            intro hck
            refine ha.1 (hck ▸ (lookupStr_isSome_iff_mem rest k).mp ?_)
            rw [hak]; rfl
          refine Or.inr ⟨k, err, p, w, he, hpk, ?_, hcw⟩
          rw [lookupStr_cons_ne _ _ hne]
          exact hak

/-- C5 (amended): the claim said argument keys must equal param keys
"after applying declared defaults (a param with a default may be omitted)".
The code never consults defaults: `check_args` succeeds iff every declared
param key is supplied (defaulted or not) and every supplied argument names
a declared param and satisfies its type predicate; a missing or unknown
key fails with `NotFound{key}` and a type mismatch with
`TypeError{key, err}` (so extra keys are errors). -/
theorem C5_check_args_no_defaults (task : Inst.Task) (args : List (String × Json))
    (ha : (args.map Prod.fst).Nodup) :
    (Inst.check_args task args = .ok () ↔
      (∀ kp ∈ task.params, (lookupStr args kp.1).isSome = true) ∧
      (∀ kv ∈ args, ∃ p, lookupStr task.params kv.1 = some p ∧
        Inst.check_type p.ty kv.2 = .ok ())) ∧
    (∀ e, Inst.check_args task args = .error e →
      (∃ k, e = .notFound k ∧
        (((lookupStr task.params k).isSome = true ∧ (lookupStr args k).isNone = true) ∨
         ((lookupStr args k).isSome = true ∧ (lookupStr task.params k).isNone = true))) ∨
      (∃ k err p v, e = .typeError k err ∧ lookupStr task.params k = some p ∧
        lookupStr args k = some v ∧ Inst.check_type p.ty v = .error err)) := by
  constructor
  · rw [Inst.check_args]
    cases hpp : Inst.checkParamsPresent args task.params with
    | error e =>
      constructor
      · intro hc; exact absurd hc (by simp)
      · intro ⟨h1, _⟩
        have := (checkParamsPresent_ok_iff args task.params).mpr h1
        rw [hpp] at this
        cases this
    | ok u =>
      cases u
      rw [checkArgsTyped_ok_iff]
      constructor
      · intro h2
        exact ⟨(checkParamsPresent_ok_iff args task.params).mp hpp, h2⟩
      · intro ⟨_, h2⟩
        exact h2
  · intro e he
    rw [Inst.check_args] at he
    cases hpp : Inst.checkParamsPresent args task.params with
    | error e' =>
      rw [hpp] at he
      have : e' = e := Except.error.inj he
      subst this
      obtain ⟨k, hk, hn, hs⟩ := checkParamsPresent_error args task.params e' hpp
      exact Or.inl ⟨k, hk, Or.inl ⟨hs, hn⟩⟩
    | ok u =>
      cases u
      rw [hpp] at he
      rcases checkArgsTyped_error task.params args ha e he with
        ⟨k, hk, hpn, hs⟩ | hr
      · refine Or.inl ⟨k, hk, Or.inr ⟨hs, ?_⟩⟩
        rw [hpn]; rfl
      · exact Or.inr hr

/-- Witness for C5: one `string` param `n`, argument `n = "x"`: the
instantiated law applies (the check succeeds and the iff holds). -/
theorem C5_check_args_no_defaults_witness :
    (Inst.check_args
        ⟨"compile", none, [("n", ⟨Inst.ArgType.string, none⟩)],
          ⟨[], [], false, [], [], [], [], none⟩⟩ [("n", Json.str "x")] = .ok () ↔
      (∀ kp ∈ [("n", (⟨Inst.ArgType.string, none⟩ : Inst.Param))],
        (lookupStr [("n", Json.str "x")] kp.1).isSome = true) ∧
      (∀ kv ∈ [("n", Json.str "x")],
        ∃ p, lookupStr [("n", (⟨Inst.ArgType.string, none⟩ : Inst.Param))] kv.1 = some p ∧
          Inst.check_type p.ty kv.2 = .ok ())) ∧
    (∀ e, Inst.check_args
        ⟨"compile", none, [("n", ⟨Inst.ArgType.string, none⟩)],
          ⟨[], [], false, [], [], [], [], none⟩⟩ [("n", Json.str "x")] = .error e →
      (∃ k, e = .notFound k ∧
        (((lookupStr [("n", (⟨Inst.ArgType.string, none⟩ : Inst.Param))] k).isSome = true ∧
            (lookupStr [("n", Json.str "x")] k).isNone = true) ∨
         ((lookupStr [("n", Json.str "x")] k).isSome = true ∧
            (lookupStr [("n", (⟨Inst.ArgType.string, none⟩ : Inst.Param))] k).isNone = true))) ∨
      (∃ k err p v, e = .typeError k err ∧
        lookupStr [("n", (⟨Inst.ArgType.string, none⟩ : Inst.Param))] k = some p ∧
        lookupStr [("n", Json.str "x")] k = some v ∧
        Inst.check_type p.ty v = .error err)) :=
  C5_check_args_no_defaults
    ⟨"compile", none, [("n", ⟨Inst.ArgType.string, none⟩)],
      ⟨[], [], false, [], [], [], [], none⟩⟩ [("n", Json.str "x")] (by decide)

/-- Counterexample to C5 as stated: a task whose single param `n` declares
a default, invoked with an empty argument map.  After applying defaults the
key sets agree, so the claim says instantiation succeeds; the code ignores
defaults and fails with `NotFound("n")`. -/
theorem C5_counterexample :
    Inst.check_args
        ⟨"compile", none, [("n", ⟨Inst.ArgType.string, some (Json.str "x")⟩)],
          ⟨[], [], false, [], [], [], [], none⟩⟩ [] =
      .error (.notFound "n") ∧
    (∀ kp ∈ [("n", (⟨Inst.ArgType.string, some (Json.str "x")⟩ : Inst.Param))],
      (Inst.Param.default kp.2).isSome = true) :=
  ⟨rfl, by decide⟩

/-! ### Instantiation render context (C6) -/

theorem lookupJson_nil (j : Json) : Inst.lookupJson j [] = some j := by
  cases j <;> rfl

theorem lookupJson_obj_cons (fields : List (String × Json)) (k : String)
    (ks : List String) :
    Inst.lookupJson (.obj fields) (k :: ks) =
      (match fields.find? (fun f => f.1 == k) with
       | some f => Inst.lookupJson f.2 ks
       | none => none) := rfl

theorem lookupJson_ctx_args (args env : List (String × Json)) (k : String) (v : Json)
    (h : lookupStr args k = some v) :
    Inst.lookupJson (Inst.birbRenderContext args env) ["args", k] = some v := by
  cases hf : args.find? (fun e => e.1 == k) with
  | none =>
    rw [lookupStr, hf] at h
    cases h
  | some f =>
    have hv : f.2 = v := by
      rw [lookupStr, hf] at h
      exact Option.some.inj h
    show Inst.lookupJson (.obj [("args", Json.obj args), ("env", Json.obj env)])
      ["args", k] = some v
    rw [lookupJson_obj_cons, List.find?_cons_of_pos _ (by simp)]
    show Inst.lookupJson (Json.obj args) [k] = some v
    rw [lookupJson_obj_cons, hf]
    show Inst.lookupJson f.2 [] = some v
    rw [lookupJson_nil, hv]

theorem lookupJson_ctx_env (args env : List (String × Json)) (k : String) (v : Json)
    (h : lookupStr env k = some v) :
    Inst.lookupJson (Inst.birbRenderContext args env) ["env", k] = some v := by
  cases hf : env.find? (fun e => e.1 == k) with
  | none =>
    rw [lookupStr, hf] at h
    cases h
  | some f =>
    have hv : f.2 = v := by
      rw [lookupStr, hf] at h
      exact Option.some.inj h
    show Inst.lookupJson (.obj [("args", Json.obj args), ("env", Json.obj env)])
      ["env", k] = some v
    rw [lookupJson_obj_cons, List.find?_cons_of_neg _ (by simp),
      List.find?_cons_of_pos _ (by simp)]
    show Inst.lookupJson (Json.obj env) [k] = some v
    rw [lookupJson_obj_cons, hf]
    show Inst.lookupJson f.2 [] = some v
    rw [lookupJson_nil, hv]

/-- C6: on every successful instantiation, each templated field of the
task body — workdir, every source, every output (tag preserved), every
step and clean-step script, every dependency's ref name and argument JSON
values — is rendered against the single render context `{args, env}`, in
which arguments are addressable as `args.name` and the environment as
`env.NAME`. -/
theorem C6_instantiate_renders (reparse : String → Option Json) (task : Inst.Task)
    (args env : List (String × Json)) (it : Inst.InstantiatedTask)
    (h : Inst.Task.instantiate task reparse args env = .ok it) :
    Inst.RendersAllFields reparse task args env it := by
  rw [Inst.Task.instantiate] at h
  cases hca : Inst.check_args task args with
  | error e => rw [hca] at h; exact absurd h (by simp)
  | ok u =>
    cases u
    simp only [hca] at h
    have hit := (Except.ok.inj h).symm
    subst hit
    exact ⟨rfl, rfl, rfl, rfl, rfl, rfl,
      fun k v hv => lookupJson_ctx_args args env k v hv,
      fun k v hv => lookupJson_ctx_env args env k v hv⟩

/-- Witness for C6: a task whose workdir is `{{args.x}}` and whose single
file output is `{{env.E}}`, instantiated with `x = "w"` and `E = "e"`. -/
theorem C6_instantiate_renders_witness :
    Inst.RendersAllFields (fun _ => none)
      ⟨"t", none, [("x", ⟨Inst.ArgType.string, none⟩)],
        ⟨[("E", Json.str "e")], [Inst.TmplPart.var ["args", "x"]], false,
          [Inst.OutputPath.file [Inst.TmplPart.var ["env", "E"]]], [], [], [], none⟩⟩
      [("x", Json.str "w")] [("E", Json.str "e")]
      ⟨"t", ⟨[("E", Json.str "e")], "w", false, [Inst.ROutputPath.file "e"], [], [], [],
        none⟩⟩ :=
  C6_instantiate_renders _ _ _ _ _ rfl

/-! ### Subprocess spawn configuration (C7) -/

theorem lookupStr_append_left {β : Type _} {l₁ : List (String × β)} {k : String}
    {v : β} (l₂ : List (String × β)) (h : lookupStr l₁ k = some v) :
    lookupStr (l₁ ++ l₂) k = some v := by
  induction l₁ with
  | nil => rw [lookupStr] at h; cases h
  | cons e l ih =>
    obtain ⟨a, b⟩ := e
    by_cases hak : a = k
    · subst hak
      rw [lookupStr_cons_self] at h
      rw [List.cons_append, lookupStr_cons_self]
      exact h
    · rw [lookupStr_cons_ne _ _ hak] at h
      rw [List.cons_append, lookupStr_cons_ne _ _ hak]
      exact ih h

theorem lookupStr_append_right {β : Type _} {l₁ : List (String × β)} {k : String}
    (l₂ : List (String × β)) (h : lookupStr l₁ k = none) :
    lookupStr (l₁ ++ l₂) k = lookupStr l₂ k := by
  induction l₁ with
  | nil => rfl
  | cons e l ih =>
    obtain ⟨a, b⟩ := e
    by_cases hak : a = k
    · subst hak
      rw [lookupStr_cons_self] at h
      cases h
    · rw [lookupStr_cons_ne _ _ hak] at h
      rw [List.cons_append, lookupStr_cons_ne _ _ hak]
      exact ih h

theorem mapUpdate_lookup_self (k : String) (v : Json) :
    ∀ m : List (String × Json), m.any (fun e => e.1 == k) = true →
      lookupStr (m.map (fun e => if e.1 == k then (k, v) else e)) k = some v := by
  intro m
  induction m with
  | nil => intro h; simp at h
  | cons e m ih =>
    intro hany
    obtain ⟨a, b⟩ := e
    by_cases hak : a = k
    · subst hak
      rw [List.map_cons, if_pos (show ((a, b).1 == a) = true by simp)]
      exact lookupStr_cons_self _ _ _
    · have hany' : m.any (fun e => e.1 == k) = true := by
        simp only [List.any_cons, Bool.or_eq_true] at hany
        rcases hany with hh | ht
        · exact absurd (by simpa using hh) hak
        · exact ht
      rw [List.map_cons, if_neg (show ¬ ((a, b).1 == k) = true by simp [hak]),
        lookupStr_cons_ne _ _ hak]
      exact ih hany'

theorem mapUpdate_lookup_ne (k : String) (v : Json) (q : String) (hq : q ≠ k) :
    ∀ m : List (String × Json),
      lookupStr (m.map (fun e => if e.1 == k then (k, v) else e)) q = lookupStr m q := by
  intro m
  induction m with
  | nil => rfl
  | cons e m ih =>
    obtain ⟨a, b⟩ := e
    by_cases hak : a = k
    · subst hak
      rw [List.map_cons, if_pos (show ((a, b).1 == a) = true by simp),
        lookupStr_cons_ne _ _ (fun hc => hq hc.symm),
        lookupStr_cons_ne _ _ (fun hc => hq hc.symm)]
      exact ih
    · rw [List.map_cons, if_neg (show ¬ ((a, b).1 == k) = true by simp [hak])]
      by_cases haq : a = q
      · subst haq
        rw [lookupStr_cons_self, lookupStr_cons_self]
      · rw [lookupStr_cons_ne _ _ haq, lookupStr_cons_ne _ _ haq]
        exact ih

theorem lhmInsert_lookup_self (m : List (String × Json)) (k : String) (v : Json) :
    lookupStr (lhmInsert m k v) k = some v := by
  rw [lhmInsert]
  by_cases hany : m.any (fun e => e.1 == k) = true
  · rw [if_pos hany]
    exact mapUpdate_lookup_self k v m hany
  · rw [if_neg hany]
    have hnone : lookupStr m k = none := by
      cases hl : lookupStr m k with
      | none => rfl
      | some w =>
        exfalso
        have hmem : k ∈ m.map Prod.fst :=
          (lookupStr_isSome_iff_mem m k).mp (by rw [hl]; rfl)
        obtain ⟨e, he, hek⟩ := List.mem_map.mp hmem
        exact hany (List.any_eq_true.mpr ⟨e, he, by simp [hek]⟩)
    rw [lookupStr_append_right _ hnone]
    exact lookupStr_cons_self _ _ _

theorem lhmInsert_lookup_ne (m : List (String × Json)) (k : String) (v : Json)
    (q : String) (hq : q ≠ k) : lookupStr (lhmInsert m k v) q = lookupStr m q := by
  rw [lhmInsert]
  by_cases hany : m.any (fun e => e.1 == k) = true
  · rw [if_pos hany]
    exact mapUpdate_lookup_ne k v q hq m
  · rw [if_neg hany]
    cases hl : lookupStr m q with
    | some w => rw [lookupStr_append_left _ hl]
    | none =>
      rw [lookupStr_append_right _ hl, lookupStr_cons_ne _ _ (fun hc => hq hc.symm)]
      rfl

theorem lookupStr_eq_none_of_not_mem {β : Type _} {l : List (String × β)} {k : String}
    (h : k ∉ l.map Prod.fst) : lookupStr l k = none := by
  cases hl : lookupStr l k with
  | none => rfl
  | some v =>
    exact absurd ((lookupStr_isSome_iff_mem l k).mp (by rw [hl]; rfl)) h

theorem lhmExtend_lookup (b : List (String × Json)) (hb : (b.map Prod.fst).Nodup) :
    ∀ (a : List (String × Json)) (q : String),
      lookupStr (lhmExtend a b) q =
        match lookupStr b q with
        | some v => some v
        | none => lookupStr a q := by
  induction b with
  | nil => intro a q; simp [lhmExtend, lookupStr]
  | cons e b ih =>
    intro a q
    obtain ⟨k, v⟩ := e
    rw [List.map_cons, List.nodup_cons] at hb
    have hstep : lhmExtend a ((k, v) :: b) = lhmExtend (lhmInsert a k v) b := rfl
    rw [hstep, ih hb.2]
    by_cases hqk : q = k
    · subst hqk
      have hbn : lookupStr b q = none :=
        lookupStr_eq_none_of_not_mem hb.1
      rw [hbn, lookupStr_cons_self, lhmInsert_lookup_self]
    · rw [lookupStr_cons_ne _ _ (fun hc => hqk hc.symm)]
      cases hl : lookupStr b q with
      | some w => rfl
      | none => exact lhmInsert_lookup_ne _ _ _ _ hqk

/-- C7: the child process each `Shell` step spawns is configured with null
stdin, piped stdout and stderr, cwd equal to the task's workdir, and the
merged `taskfile.env` then `task.env` environment, in which a key of
`task.env` overrides one of `taskfile.env`. -/
theorem C7_exec_shell_child_config (taskfileEnv taskEnv : List (String × Json))
    (hb : (taskEnv.map Prod.fst).Nodup) (tmpPath pwd cmd : String) :
    (exec_shell_config tmpPath pwd (mergedEnv taskfileEnv taskEnv) cmd).stdinCfg =
      .nullDev ∧
    (exec_shell_config tmpPath pwd (mergedEnv taskfileEnv taskEnv) cmd).stdoutCfg =
      .piped ∧
    (exec_shell_config tmpPath pwd (mergedEnv taskfileEnv taskEnv) cmd).stderrCfg =
      .piped ∧
    (exec_shell_config tmpPath pwd (mergedEnv taskfileEnv taskEnv) cmd).cwd = pwd ∧
    (exec_shell_config tmpPath pwd (mergedEnv taskfileEnv taskEnv) cmd).env =
      mergedEnv taskfileEnv taskEnv ∧
    (∀ k, lookupStr (exec_shell_config tmpPath pwd
        (mergedEnv taskfileEnv taskEnv) cmd).env k =
      match lookupStr taskEnv k with
      | some v => some v
      | none => lookupStr taskfileEnv k) :=
  ⟨rfl, rfl, rfl, rfl, rfl, fun k => lhmExtend_lookup taskEnv hb taskfileEnv k⟩

/-- Witness for C7: taskfile env `A=1, B=2`, task env `B=3`: the spawn
configuration law applies; in particular `B` resolves to the task-level
value. -/
theorem C7_exec_shell_child_config_witness :
    (exec_shell_config "/tmp/s" "/w"
        (mergedEnv [("A", Json.str "1"), ("B", Json.str "2")] [("B", Json.str "3")])
        "echo hi").stdinCfg = .nullDev ∧
    (exec_shell_config "/tmp/s" "/w"
        (mergedEnv [("A", Json.str "1"), ("B", Json.str "2")] [("B", Json.str "3")])
        "echo hi").stdoutCfg = .piped ∧
    (exec_shell_config "/tmp/s" "/w"
        (mergedEnv [("A", Json.str "1"), ("B", Json.str "2")] [("B", Json.str "3")])
        "echo hi").stderrCfg = .piped ∧
    (exec_shell_config "/tmp/s" "/w"
        (mergedEnv [("A", Json.str "1"), ("B", Json.str "2")] [("B", Json.str "3")])
        "echo hi").cwd = "/w" ∧
    (exec_shell_config "/tmp/s" "/w"
        (mergedEnv [("A", Json.str "1"), ("B", Json.str "2")] [("B", Json.str "3")])
        "echo hi").env =
      mergedEnv [("A", Json.str "1"), ("B", Json.str "2")] [("B", Json.str "3")] ∧
    (∀ k, lookupStr (exec_shell_config "/tmp/s" "/w"
        (mergedEnv [("A", Json.str "1"), ("B", Json.str "2")] [("B", Json.str "3")])
        "echo hi").env k =
      match lookupStr [("B", Json.str "3")] k with
      | some v => some v
      | none => lookupStr [("A", Json.str "1"), ("B", Json.str "2")] k) :=
  C7_exec_shell_child_config [("A", Json.str "1"), ("B", Json.str "2")]
    [("B", Json.str "3")] (by decide) "/tmp/s" "/w" "echo hi"

/-! ### Workspace import closure (C8) and total task resolution (C10) -/

theorem wsFind_cons_self (i : Nat) (tf : Taskfile) (ws : Workspace) :
    wsFind ((i, tf) :: ws) i = some tf := by
  simp [wsFind, List.find?_cons_of_pos]

theorem wsFind_cons_ne {i q : Nat} (tf : Taskfile) (ws : Workspace) (h : i ≠ q) :
    wsFind ((i, tf) :: ws) q = wsFind ws q := by
  unfold wsFind
  rw [List.find?_cons_of_neg _ (by simp [h])]

theorem wsFind_setImports (ws : Workspace) (i : Nat)
    (l : List (String × TaskfileImportRef)) (q : Nat) :
    wsFind (wsSetImports ws i l) q =
      if q = i then (wsFind ws i).map (fun tf => ⟨tf.id, l, tf.tasks⟩)
      else wsFind ws q := by
  induction ws with
  | nil =>
    by_cases hqi : q = i <;> simp [wsFind, wsSetImports, hqi]
  | cons e ws ih =>
    obtain ⟨a, tf⟩ := e
    have hstep : wsSetImports ((a, tf) :: ws) i l =
        (if a = i then (a, (⟨tf.id, l, tf.tasks⟩ : Taskfile)) else (a, tf)) ::
          wsSetImports ws i l := rfl
    rw [hstep]
    by_cases hai : a = i
    · rw [if_pos hai]
      subst hai
      by_cases hqa : q = a
      · subst hqa
        rw [if_pos rfl, wsFind_cons_self, wsFind_cons_self]
        rfl
      · rw [if_neg hqa, wsFind_cons_ne _ _ (fun hc => hqa hc.symm),
          wsFind_cons_ne _ _ (fun hc => hqa hc.symm), ih, if_neg hqa]
    · rw [if_neg hai]
      by_cases hqa : q = a
      · subst hqa
        rw [wsFind_cons_self, if_neg (fun hc => hai (hc.symm : i = q).symm),
          wsFind_cons_self]
      · rw [wsFind_cons_ne _ _ (fun hc => hqa hc.symm), ih]
        by_cases hqi : q = i
        · rw [if_pos hqi, if_pos hqi, wsFind_cons_ne _ _ hai]
        · rw [if_neg hqi, if_neg hqi, wsFind_cons_ne _ _ (fun hc => hqa hc.symm)]

theorem wsFind_setImports_isSome {ws : Workspace} {j : Nat}
    (i : Nat) (l : List (String × TaskfileImportRef))
    (h : (wsFind ws j).isSome = true) :
    (wsFind (wsSetImports ws i l) j).isSome = true := by
  rw [wsFind_setImports]
  by_cases hji : j = i
  · rw [if_pos hji]
    subst hji
    cases hw : wsFind ws j with
    | none => rw [hw] at h; cases h
    | some tf => rfl
  · rw [if_neg hji]
    exact h

theorem load_spec (disk : Nat → Option TaskfileSrc) (fuel : Nat) :
    (∀ ws path ws' id, load_taskfile disk fuel ws path = some (ws', id) →
      (∀ q, (wsFind ws q).isSome = true → wsFind ws' q = wsFind ws q) ∧
      (wsFind ws' id).isSome = true ∧
      (∀ q tf, wsFind ws' q = some tf → wsFind ws q = none →
        ∀ e ∈ tf.imports, ∃ j, e.2 = TaskfileImportRef.resolved j ∧
          (wsFind ws' j).isSome = true)) ∧
    (∀ ws l ws' l', resolveImports disk fuel ws l = some (ws', l') →
      (∀ q, (wsFind ws q).isSome = true → wsFind ws' q = wsFind ws q) ∧
      (∀ q tf, wsFind ws' q = some tf → wsFind ws q = none →
        ∀ e ∈ tf.imports, ∃ j, e.2 = TaskfileImportRef.resolved j ∧
          (wsFind ws' j).isSome = true) ∧
      (∀ e ∈ l', ∃ j, e.2 = TaskfileImportRef.resolved j ∧
        (wsFind ws' j).isSome = true)) := by
  induction fuel with
  | zero =>
    constructor
    · intro ws path ws' id h
      rw [load_taskfile] at h
      cases h
    · intro ws l ws' l' h
      rw [resolveImports] at h
      cases h
  | succ fuel ih =>
    obtain ⟨ihL, ihR⟩ := ih
    constructor
    · -- load_taskfile (fuel+1)
      intro ws path ws' id h
      rw [load_taskfile] at h
      cases hcache : wsFind ws path with
      | some tf =>
        simp only [hcache] at h
        injection h with hpair
        injection hpair with hws hid
        subst hws; subst hid
        refine ⟨fun q _ => rfl, by rw [hcache]; rfl, ?_⟩
        intro q tf' hsome hnone e _
        rw [hsome] at hnone
        cases hnone
      | none =>
        simp only [hcache] at h
        cases hdisk : disk path with
        | none => simp [hdisk] at h
        | some src =>
          simp only [hdisk] at h
          cases hres : resolveImports disk fuel
              ((path, (⟨path, src.imports, src.tasks⟩ : Taskfile)) :: ws)
              src.imports with
          | none => simp [hres] at h
          | some r =>
            obtain ⟨ws₂, imports'⟩ := r
            simp only [hres] at h
            injection h with hpair
            injection hpair with hws hid
            subst hws; subst hid
            obtain ⟨Ra, Rd, Rf⟩ := ihR _ _ _ _ hres
            have hq_ne_path : ∀ q, (wsFind ws q).isSome = true → q ≠ path := by
              intro q hq hc
              rw [hc, hcache] at hq
              cases hq
            have hws₁_two : ∀ q, q ≠ path →
                wsFind ((path, (⟨path, src.imports, src.tasks⟩ : Taskfile)) :: ws) q =
                  wsFind ws q :=
              fun q hq => wsFind_cons_ne _ _ (fun hc => hq hc.symm)
            have hws₁_path :
                wsFind ((path, (⟨path, src.imports, src.tasks⟩ : Taskfile)) :: ws) path =
                  some ⟨path, src.imports, src.tasks⟩ :=
              wsFind_cons_self _ _ _
            have hws₂_path : wsFind ws₂ path = some ⟨path, src.imports, src.tasks⟩ := by
              rw [Ra path (by rw [hws₁_path]; rfl)]
              exact hws₁_path
            refine ⟨?_, ?_, ?_⟩
            · intro q hq
              have hqp := hq_ne_path q hq
              rw [wsFind_setImports, if_neg hqp]
              rw [Ra q (by rw [hws₁_two q hqp]; exact hq)]
              exact hws₁_two q hqp
            · rw [wsFind_setImports, if_pos rfl, hws₂_path]
              rfl
            · intro q tf hsome hnone e he
              by_cases hqp : q = path
              · rw [hqp] at hsome
                rw [wsFind_setImports, if_pos rfl, hws₂_path] at hsome
                have htf : tf = ⟨path, imports', src.tasks⟩ :=
                  (Option.some.inj hsome).symm
                subst htf
                obtain ⟨j, hj, hjs⟩ := Rf e he
                exact ⟨j, hj, wsFind_setImports_isSome _ _ hjs⟩
              · rw [wsFind_setImports, if_neg hqp] at hsome
                have hnone₁ : wsFind ((path, (⟨path, src.imports, src.tasks⟩ :
                    Taskfile)) :: ws) q = none := by
                  rw [hws₁_two q hqp]
                  exact hnone
                obtain ⟨j, hj, hjs⟩ := Rd q tf hsome hnone₁ e he
                exact ⟨j, hj, wsFind_setImports_isSome _ _ hjs⟩
    · -- resolveImports (fuel+1)
      intro ws l ws' l' h
      cases l with
      | nil =>
        rw [resolveImports] at h
        injection h with hpair
        injection hpair with hws hl
        subst hws; subst hl
        refine ⟨fun q _ => rfl, ?_, ?_⟩
        · intro q tf hsome hnone
          rw [hsome] at hnone
          cases hnone
        · intro e he
          cases he
      | cons entry rest =>
        obtain ⟨name, ref⟩ := entry
        cases ref with
        | resolved idr =>
          have hstep : resolveImports disk (fuel+1) ws
              ((name, TaskfileImportRef.resolved idr) :: rest) =
              (if (wsFind ws idr).isSome = true then
                match resolveImports disk fuel ws rest with
                | some (ws', rest') =>
                  some (ws', (name, TaskfileImportRef.resolved idr) :: rest')
                | none => none
              else none) := rfl
          rw [hstep] at h
          by_cases hguard : (wsFind ws idr).isSome = true
          · rw [if_pos hguard] at h
            cases hres : resolveImports disk fuel ws rest with
            | none => simp [hres] at h
            | some r =>
              obtain ⟨ws'', rest'⟩ := r
              simp only [hres] at h
              injection h with hpair
              injection hpair with hws hl
              subst hws; subst hl
              obtain ⟨Ra, Rd, Rf⟩ := ihR _ _ _ _ hres
              refine ⟨Ra, Rd, ?_⟩
              intro e he
              rcases List.mem_cons.mp he with he | he
              · refine ⟨idr, by rw [he], ?_⟩
                rw [Ra idr hguard]
                exact hguard
              · exact Rf e he
          · rw [if_neg hguard] at h
            cases h
        | unresolved pathu =>
          have hstep : resolveImports disk (fuel+1) ws
              ((name, TaskfileImportRef.unresolved pathu) :: rest) =
              (match load_taskfile disk fuel ws pathu with
               | some (ws₁, id) =>
                 match resolveImports disk fuel ws₁ rest with
                 | some (ws', rest') =>
                   some (ws', (name, TaskfileImportRef.resolved id) :: rest')
                 | none => none
               | none => none) := rfl
          rw [hstep] at h
          cases hload : load_taskfile disk fuel ws pathu with
          | none => simp [hload] at h
          | some r =>
            obtain ⟨ws₁, idu⟩ := r
            simp only [hload] at h
            cases hres : resolveImports disk fuel ws₁ rest with
            | none => simp [hres] at h
            | some r2 =>
              obtain ⟨ws'', rest'⟩ := r2
              simp only [hres] at h
              injection h with hpair
              injection hpair with hws hl
              subst hws; subst hl
              obtain ⟨La, Lb, Ld⟩ := ihL _ _ _ _ hload
              obtain ⟨Ra, Rd, Rf⟩ := ihR _ _ _ _ hres
              refine ⟨?_, ?_, ?_⟩
              · intro q hq
                have h1 := La q hq
                rw [Ra q (by rw [h1]; exact hq), h1]
              · intro q tf hsome hnone e he
                by_cases hq₁ : (wsFind ws₁ q).isSome = true
                · have h1 : wsFind ws'' q = wsFind ws₁ q := Ra q hq₁
                  rw [h1] at hsome
                  obtain ⟨j, hj, hjs⟩ := Ld q tf hsome hnone e he
                  refine ⟨j, hj, ?_⟩
                  rw [Ra j hjs]
                  exact hjs
                · have hnone₁ : wsFind ws₁ q = none := by
                    cases hw : wsFind ws₁ q with
                    | none => rfl
                    | some t => rw [hw] at hq₁; exact absurd rfl hq₁
                  exact Rd q tf hsome hnone₁ e he
              · intro e he
                rcases List.mem_cons.mp he with he | he
                · refine ⟨idu, by rw [he], ?_⟩
                  rw [Ra idu Lb]
                  exact Lb
                · exact Rf e he

/-- Every workspace reachable through successful loads is closed under
its imports: each import of each taskfile is `Resolved` with a present
target. -/
theorem loadedFrom_closed (disk : Nat → Option TaskfileSrc) {ws : Workspace}
    (h : LoadedFrom disk ws) :
    ∀ i tf, wsFind ws i = some tf → ∀ e ∈ tf.imports,
      ∃ j, e.2 = TaskfileImportRef.resolved j ∧ (wsFind ws j).isSome = true := by
  induction h with
  | empty =>
    intro i tf hfind
    rw [wsFind] at hfind
    cases hfind
  | @step ws ws' fuel path id _ hload ih =>
    obtain ⟨La, _, Ld⟩ := (load_spec disk fuel).1 ws path ws' id hload
    intro i tf hfind e he
    by_cases hws : (wsFind ws i).isSome = true
    · have heq : wsFind ws' i = wsFind ws i := La i hws
      rw [heq] at hfind
      obtain ⟨j, hj, hjs⟩ := ih i tf hfind e he
      refine ⟨j, hj, ?_⟩
      rw [La j hjs]
      exact hjs
    · have hnone : wsFind ws i = none := by
        cases hw : wsFind ws i with
        | none => rfl
        | some t => rw [hw] at hws; exact absurd rfl hws
      exact Ld i tf hfind hnone e he

/-- C8: after a successful `load_taskfile` on any root path (starting from
the fresh workspace), every import reference of every taskfile in the
workspace is `Resolved(id)` with `id` present as a key of the workspace
map — including in the presence of import cycles, which the
already-loaded check breaks. -/
theorem C8_import_closure (disk : Nat → Option TaskfileSrc) (fuel root : Nat)
    (ws : Workspace) (id : Nat)
    (h : load_taskfile disk fuel [] root = some (ws, id)) :
    ∀ i tf, wsFind ws i = some tf → ∀ e ∈ tf.imports,
      ∃ j, e.2 = TaskfileImportRef.resolved j ∧ (wsFind ws j).isSome = true :=
  loadedFrom_closed disk (LoadedFrom.step LoadedFrom.empty h)

/-- Witness for C8: a two-taskfile import cycle (0 imports 1 as `b`,
1 imports 0 as `a`); loading 0 succeeds and both import lists end up
resolved with present targets. -/
theorem C8_import_closure_witness :
    ∃ j, TaskfileImportRef.resolved 1 = TaskfileImportRef.resolved j ∧
      (wsFind [(1, (⟨1, [("a", TaskfileImportRef.resolved 0)], ["y"]⟩ : Taskfile)),
               (0, (⟨0, [("b", TaskfileImportRef.resolved 1)], ["x"]⟩ : Taskfile))]
        j).isSome = true :=
  C8_import_closure
    (fun n =>
      if n = 0 then some ⟨[("b", TaskfileImportRef.unresolved 1)], ["x"]⟩
      else if n = 1 then some ⟨[("a", TaskfileImportRef.unresolved 0)], ["y"]⟩
      else none)
    10 0
    [(1, ⟨1, [("a", TaskfileImportRef.resolved 0)], ["y"]⟩),
     (0, ⟨0, [("b", TaskfileImportRef.resolved 1)], ["x"]⟩)]
    0 rfl
    0 ⟨0, [("b", TaskfileImportRef.resolved 1)], ["x"]⟩ rfl
    ("b", TaskfileImportRef.resolved 1) (List.mem_singleton.mpr rfl)

theorem lookupStr_mem {β : Type _} {l : List (String × β)} {k : String} {v : β}
    (h : lookupStr l k = some v) : (k, v) ∈ l := by
  induction l with
  | nil => rw [lookupStr] at h; cases h
  | cons e l ih =>
    obtain ⟨a, b⟩ := e
    by_cases hak : a = k
    · subst hak
      rw [lookupStr_cons_self] at h
      have hbv : b = v := Option.some.inj h
      rw [← hbv]
      exact List.mem_cons_self _ _
    · rw [lookupStr_cons_ne _ _ hak] at h
      exact List.mem_cons_of_mem _ (ih h)

/-- C10: in a workspace produced solely by successful `load_taskfile`
calls, `resolve_task` never reaches the `panic!` branch for an
`Unresolved` import: for every reference it totally returns `ok` (either
the defining taskfile and task, or `none`). -/
theorem C10_resolve_task_total (disk : Nat → Option TaskfileSrc) {ws : Workspace}
    (h : LoadedFrom disk ws) (current : Taskfile) (i : Nat)
    (hc : wsFind ws i = some current) (ref : WsTaskRef) :
    ∃ r, resolve_task ws current ref = .ok r := by
  cases ref with
  | name n => exact ⟨_, rfl⟩
  | imported a n =>
    cases him : lookupStr current.imports a with
    | none =>
      refine ⟨none, ?_⟩
      rw [resolve_task]
      simp only [him]
    | some r =>
      cases r with
      | unresolved p =>
        exfalso
        have hmem : (a, TaskfileImportRef.unresolved p) ∈ current.imports :=
          lookupStr_mem him
        obtain ⟨j, hj, _⟩ :=
          loadedFrom_closed disk h i current hc (a, TaskfileImportRef.unresolved p) hmem
        cases hj
      | resolved idr =>
        cases hfind : wsFind ws idr with
        | none =>
          refine ⟨none, ?_⟩
          rw [resolve_task]
          simp only [him, hfind]
        | some tf =>
          refine ⟨if tf.tasks.contains n then some (tf, n) else none, ?_⟩
          rw [resolve_task]
          simp only [him, hfind]

/-- Witness for C10: in the cyclic two-taskfile workspace of the C8
witness, resolving `b:y` from taskfile 0 returns without panicking. -/
theorem C10_resolve_task_total_witness :
    ∃ r, resolve_task
      [(1, (⟨1, [("a", TaskfileImportRef.resolved 0)], ["y"]⟩ : Taskfile)),
       (0, (⟨0, [("b", TaskfileImportRef.resolved 1)], ["x"]⟩ : Taskfile))]
      ⟨0, [("b", TaskfileImportRef.resolved 1)], ["x"]⟩
      (.imported "b" "y") = .ok r :=
  C10_resolve_task_total
    (fun n =>
      if n = 0 then some ⟨[("b", TaskfileImportRef.unresolved 1)], ["x"]⟩
      else if n = 1 then some ⟨[("a", TaskfileImportRef.unresolved 0)], ["y"]⟩
      else none)
    (@LoadedFrom.step
      (fun n =>
        if n = 0 then some ⟨[("b", TaskfileImportRef.unresolved 1)], ["x"]⟩
        else if n = 1 then some ⟨[("a", TaskfileImportRef.unresolved 0)], ["y"]⟩
        else none)
      []
      [(1, (⟨1, [("a", TaskfileImportRef.resolved 0)], ["y"]⟩ : Taskfile)),
       (0, (⟨0, [("b", TaskfileImportRef.resolved 1)], ["x"]⟩ : Taskfile))]
      10 0 0 LoadedFrom.empty rfl)
    ⟨0, [("b", TaskfileImportRef.resolved 1)], ["x"]⟩ 0 rfl (.imported "b" "y")

/-! ### Scheduler interruption (C9) -/

/-- C9: in the parallel pump, at any feeding iteration (any queue and any
running set below the concurrency bound) at which `run_while()` answers
false, no further job is ever spawned, the pump does not return `Ok`, and
once the already-running jobs drain — when they all succeed — it returns
the interrupted error.  (When a draining job fails, the result is the
task-failure error instead: still an `Err`.) -/
theorem C9_pump_interrupt (fails : Node → Bool) (pick : List Node → Nat)
    (fuel maxC : Nat) (tq : TaskTreeQueue) (running : List Node)
    (interrupted : Bool) (rws : List Bool) (hcap : running.length < maxC) :
    (pump fails pick (fuel+1) maxC tq running interrupted (false :: rws)).2 = [] ∧
    (pump fails pick (fuel+1) maxC tq running interrupted (false :: rws)).1 ≠ .ok ∧
    ((∀ t ∈ running, fails t = false) →
      (pump fails pick (fuel+1) maxC tq running interrupted (false :: rws)).1 =
        .interrupted) := by
  have hstep : pump fails pick (fuel+1) maxC tq running interrupted (false :: rws) =
      (drainResult fails running true, []) := by
    rw [pump, if_pos hcap]
    rfl
  rw [hstep]
  refine ⟨rfl, ?_, ?_⟩
  · rw [drainResult]
    by_cases hf : (running.filter (fun t => fails t)).isEmpty = true
    · rw [if_pos hf, if_pos rfl]
      intro hc
      cases hc
    · rw [if_neg hf]
      intro hc
      cases hc
  · intro hall
    rw [drainResult]
    have hnil : running.filter (fun t => fails t) = [] :=
      List.filter_eq_nil_iff.mpr (fun t ht => by rw [hall t ht]; exact Bool.false_ne_true)
    rw [hnil]
    rfl

/-- Witness for C9: one running job (which would succeed), one ready job
in the queue, capacity 2, and `run_while()` answering false: nothing is
spawned and the run is interrupted. -/
theorem C9_pump_interrupt_witness :
    (pump (fun _ => false) (fun _ => 0) (4+1) 2 ⟨[(5, [])], []⟩ [3] false
      (false :: [])).2 = [] ∧
    (pump (fun _ => false) (fun _ => 0) (4+1) 2 ⟨[(5, [])], []⟩ [3] false
      (false :: [])).1 ≠ .ok ∧
    ((∀ t ∈ [3], (fun _ => false) t = false) →
      (pump (fun _ => false) (fun _ => 0) (4+1) 2 ⟨[(5, [])], []⟩ [3] false
        (false :: [])).1 = .interrupted) :=
  C9_pump_interrupt (fun _ => false) (fun _ => 0) 4 2 ⟨[(5, [])], []⟩ [3] false []
    (by decide)

end BirbRun
